import Mathlib

/-!
Verification of the streaming delivery pipeline of the digital-employee demo.

The development embeds, over `List Char`:
  * `ThoughtTagFilter` and `FinalAnswerFilter` from `src/services/agent_sync.py`
    (streaming state machines stripping hidden-reasoning markup and isolating
    the final-answer section),
  * the thread+queue event bridge of `run_agent_streaming` (producer enqueue
    order, end-of-stream sentinel, consumer loop with per-item timeout),
  * the memory dedup check of `src/memory/llm_extractor.py` and the fallback
    pattern extractor of `src/memory/extractor.py`.

Python strings are modelled as `List Char`; `str.find` / `str.rfind` /
slicing become explicit recursive functions below.
-/

namespace DigitalEmployee

/-! ### String helpers (Python string primitives on `List Char`) -/

/-- Python `s[-n:]` (for `0 < n ≤ s.length`): the last `n` characters. -/
def lastN (n : Nat) (l : List Char) : List Char := l.drop (l.length - n)

/-- Python `s.find(pat)` restricted to a suffix: index of the leftmost
occurrence of `pat` in `s`, if any. -/
def strFind (pat : List Char) : List Char → Option Nat
  | [] => if pat.isPrefixOf [] then some 0 else none
  | a :: t => if pat.isPrefixOf (a :: t) then some 0 else (strFind pat t).map (· + 1)

/-- Python `s.rfind(c)` for a single character: index of the rightmost
occurrence of `c` in `s`, if any. -/
def lastIndexOf (c : Char) : List Char → Option Nat
  | [] => none
  | a :: t =>
    match lastIndexOf c t with
    | some p => some (p + 1)
    | none => if a = c then some 0 else none

@[simp] theorem strFind_nil_of_ne (c : Char) (pt : List Char) :
    strFind (c :: pt) [] = none := by
  simp [strFind, List.isPrefixOf]

theorem strFind_cons (pat : List Char) (a : Char) (t : List Char) :
    strFind pat (a :: t) =
      if pat.isPrefixOf (a :: t) then some 0 else (strFind pat t).map (· + 1) := rfl

theorem strFind_of_isPrefixOf {pat s : List Char} (h : pat.isPrefixOf s) :
    strFind pat s = some 0 := by
  cases s <;> simp [strFind, h]

theorem isPrefixOf_append_self (p w : List Char) : p.isPrefixOf (p ++ w) = true := by
  induction p with
  | nil => simp [List.isPrefixOf]
  | cons a t ih => simp [List.isPrefixOf, ih]

theorem length_le_of_isPrefixOf {p l : List Char} (h : p.isPrefixOf l = true) :
    p.length ≤ l.length := by
  induction p generalizing l with
  | nil => simp
  | cons a t ih =>
    cases l with
    | nil => simp [List.isPrefixOf] at h
    | cons b m =>
      simp only [List.isPrefixOf, Bool.and_eq_true, beq_iff_eq] at h
      have := ih h.2
      simp only [List.length_cons]
      omega

theorem eq_append_of_isPrefixOf {p l : List Char} (h : p.isPrefixOf l = true) :
    ∃ r, l = p ++ r := by
  induction p generalizing l with
  | nil => exact ⟨l, rfl⟩
  | cons a t ih =>
    cases l with
    | nil => simp [List.isPrefixOf] at h
    | cons b m =>
      simp only [List.isPrefixOf, Bool.and_eq_true, beq_iff_eq] at h
      obtain ⟨r, hr⟩ := ih h.2
      exact ⟨r, by simp [h.1, hr]⟩

/-- A pattern headed by `c` does not occur in a `c`-free string. -/
theorem strFind_none_of_not_mem {c : Char} {pt r : List Char} (h : c ∉ r) :
    strFind (c :: pt) r = none := by
  induction r with
  | nil => simp
  | cons a t ih =>
    rw [strFind_cons]
    have hca : ¬ (c :: pt).isPrefixOf (a :: t) := by
      simp only [List.isPrefixOf, Bool.and_eq_true, beq_iff_eq]
      rintro ⟨rfl, -⟩
      exact h (List.mem_cons_self _ _)
    simp only [hca, if_false]
    rw [ih (fun hm => h (List.mem_cons_of_mem _ hm))]
    rfl

/-- A `'<'`-headed pattern laid out after a `'<'`-free run is found exactly
at the end of that run. -/
theorem strFind_first_at {pt u w : List Char} (hu : '<' ∉ u) :
    strFind ('<' :: pt) (u ++ ('<' :: pt) ++ w) = some u.length := by
  induction u with
  | nil =>
    simp only [List.nil_append]
    exact strFind_of_isPrefixOf (isPrefixOf_append_self ('<' :: pt) w)
  | cons a t ih =>
    have ha : a ≠ '<' := fun h => hu (h ▸ List.mem_cons_self _ _)
    rw [List.cons_append, List.cons_append, strFind_cons]
    have hpre : ¬ ('<' :: pt).isPrefixOf (a :: (t ++ ('<' :: pt) ++ w)) := by
      simp only [List.isPrefixOf, Bool.and_eq_true, beq_iff_eq]
      rintro ⟨h, -⟩
      exact ha h.symm
    simp only [hpre, if_false]
    have := ih (fun hm => hu (List.mem_cons_of_mem _ hm))
    rw [List.append_assoc] at this ⊢
    rw [this]
    simp

/-- A `'<'`-headed pattern does not occur in `u ++ '<' :: v` when both `u`
and `v` are `'<'`-free and the string is too short from its unique `'<'`. -/
theorem strFind_none_short {pt u v : List Char} (hu : '<' ∉ u) (hv : '<' ∉ v)
    (hshort : v.length + 1 < pt.length + 1) :
    strFind ('<' :: pt) (u ++ '<' :: v) = none := by
  induction u with
  | nil =>
    simp only [List.nil_append]
    rw [strFind_cons]
    have hpre : ¬ ('<' :: pt).isPrefixOf ('<' :: v) := by
      intro h
      have := length_le_of_isPrefixOf h
      simp only [List.length_cons] at this
      omega
    simp only [hpre, if_false]
    rw [strFind_none_of_not_mem hv]
    rfl
  | cons a t ih =>
    have ha : a ≠ '<' := fun h => hu (h ▸ List.mem_cons_self _ _)
    rw [List.cons_append, strFind_cons]
    have hpre : ¬ ('<' :: pt).isPrefixOf (a :: (t ++ '<' :: v)) := by
      simp only [List.isPrefixOf, Bool.and_eq_true, beq_iff_eq]
      rintro ⟨h, -⟩
      exact ha h.symm
    simp only [hpre, if_false]
    rw [ih (fun hm => hu (List.mem_cons_of_mem _ hm))]
    rfl

@[simp] theorem lastIndexOf_none_of_not_mem {c : Char} {l : List Char} (h : c ∉ l) :
    lastIndexOf c l = none := by
  induction l with
  | nil => rfl
  | cons a t ih =>
    have ha : a ≠ c := fun hh => h (hh ▸ List.mem_cons_self _ _)
    simp [lastIndexOf, ih (fun hm => h (List.mem_cons_of_mem _ hm)), ha]

/-! ### ThoughtTagFilter (`src/services/agent_sync.py`, lines 35–106)

State: `_in_tag : str | None`, `_carry : str`.  `feed` prepends the carry,
then scans: inside a hidden tag it searches for the matching close and on
failure retains `s[-keep:]` of the *whole* buffer (`keep = len(close) - 1`);
outside it finds the earliest `<tag>`/`</tag>` among the configured tags,
emits the text before it, and otherwise emits everything except a trailing
strict prefix of a recognized tag token (`split_partial_tag`). -/

/-- `f"<{t}>"`. -/
def openTok (t : List Char) : List Char := '<' :: (t ++ ['>'])

/-- `f"</{t}>"`. -/
def closeTok (t : List Char) : List Char := '<' :: '/' :: (t ++ ['>'])

structure TagState where
  inTag : Option (List Char)
  carry : List Char
deriving DecidableEq, Repr

namespace ThoughtTagFilter

/-- `split_partial_tag` (lines 57–65): split off a trailing fragment that
could be the beginning of a recognized tag token. -/
def splitPartialTag (tags : List (List Char)) (src : List Char) : List Char × List Char :=
  match lastIndexOf '<' src with
  | none => (src, [])
  | some p =>
    let tl := src.drop p
    if tags.any (fun t => tl.isPrefixOf (openTok t) || tl.isPrefixOf (closeTok t))
    then (src.take p, tl)
    else (src, [])

/-- One strictly-smaller update step of the best-candidate accumulator
(lines 83–89): a found position replaces the best only when strictly
earlier. -/
def updBest (best : Option (Nat × Bool × List Char)) (found : Option Nat)
    (isOpen : Bool) (t : List Char) : Option (Nat × Bool × List Char) :=
  match found with
  | none => best
  | some p =>
    match best with
    | none => some (p, isOpen, t)
    | some (bp, bk, bt) => if p < bp then some (p, isOpen, t) else some (bp, bk, bt)

/-- Earliest open/close marker among the known tags (lines 79–89). -/
def findBest (tags : List (List Char)) (s : List Char) : Option (Nat × Bool × List Char) :=
  tags.foldl
    (fun best t =>
      updBest (updBest best (strFind (openTok t) s) true t) (strFind (closeTok t) s) false t)
    none

/-- The scanning loop of `feed` (lines 67–105), on the remaining suffix
`r` of the fixed buffer `s`, with fuel (the loop advances at least one
character per iteration, so `s.length` fuel suffices). -/
def tagLoop (tags : List (List Char)) (s : List Char) :
    Nat → Option (List Char) → List Char → TagState × List Char
  | _, inTag, [] => (⟨inTag, []⟩, [])
  | 0, inTag, _ :: _ => (⟨inTag, []⟩, [])
  | fuel + 1, some t, a :: r =>
    match strFind (closeTok t) (a :: r) with
    | none =>
      let keep := (closeTok t).length - 1
      (⟨some t, if 0 < keep ∧ keep ≤ s.length then lastN keep s else s⟩, [])
    | some j => tagLoop tags s fuel none ((a :: r).drop (j + (closeTok t).length))
  | fuel + 1, none, a :: r =>
    match findBest tags (a :: r) with
    | none =>
      let pr := splitPartialTag tags (a :: r)
      (⟨none, pr.2⟩, pr.1)
    | some (p, isOpen, t) =>
      let tokLen := if isOpen then (openTok t).length else (closeTok t).length
      let res := tagLoop tags s fuel (if isOpen then some t else none)
        ((a :: r).drop (p + tokLen))
      (res.1, (a :: r).take p ++ res.2)

/-- `ThoughtTagFilter.feed` (lines 48–106). -/
def feed (tags : List (List Char)) (st : TagState) (text : List Char) :
    TagState × List Char :=
  if text = [] then (st, [])
  else
    let s := st.carry ++ text
    tagLoop tags s s.length st.inTag s

/-- Feed a sequence of chunks; the second component is the concatenation of
the per-call outputs. -/
def feedMany (tags : List (List Char)) (st : TagState) :
    List (List Char) → TagState × List Char
  | [] => (st, [])
  | c :: cs =>
    let r1 := feed tags st c
    let r2 := feedMany tags r1.1 cs
    (r2.1, r1.2 ++ r2.2)

end ThoughtTagFilter

/-- The default constructor arguments: `tags = ("think", "analysis")`. -/
def defaultTags : List (List Char) := ["think".toList, "analysis".toList]

/-- A freshly constructed `ThoughtTagFilter`: no open tag, empty carry. -/
def freshTag : TagState := ⟨none, []⟩

/-- `strip_hidden_reasoning` (lines 188–191): one-shot feed of a whole string
through a fresh filter. -/
def strip_hidden_reasoning (text : List Char) : List Char :=
  (ThoughtTagFilter.feed defaultTags freshTag text).2

-- Sanity checks against `tests/test_thought_tag_filter.py`.
example :
    (ThoughtTagFilter.feedMany defaultTags freshTag
      ["你好<think>内部".toList, "思考</think>世界".toList]).2 = "你好世界".toList := by decide
example :
    (ThoughtTagFilter.feed defaultTags freshTag "</think>你好".toList).2 = "你好".toList := by
  decide
example :
    (ThoughtTagFilter.feed defaultTags freshTag "a<analysis>hidden</analysis>b".toList).2
      = "ab".toList := by decide
example :
    (ThoughtTagFilter.feedMany defaultTags freshTag
      ["a<analy".toList, "sis>hidden</ana".toList, "lysis>b".toList]).2 = "ab".toList := by
  decide

/-! ### FinalAnswerFilter (`src/services/agent_sync.py`, lines 109–185)

Pipes the chunk through an embedded `ThoughtTagFilter` first, then extracts
the single `<final>…</final>` span with its own carry.  Before the first
`<final>` all text is suppressed; once `</final>` closes, `_done` is set
and everything afterwards (including the rest of that chunk) is dropped. -/

structure FinalState where
  hidden : TagState
  carry : List Char
  inFinal : Bool
  done : Bool
  seenFinal : Bool
deriving DecidableEq, Repr

namespace FinalAnswerFilter

/-- Result flags of the final-section scanning loop. -/
structure LoopRes where
  carry : List Char
  inFinal : Bool
  done : Bool
  seenFinal : Bool
  out : List Char
deriving DecidableEq, Repr

/-- The scanning loop of `FinalAnswerFilter.feed` (lines 146–183), on the
remaining suffix of the buffer, with fuel. -/
def finalLoop (openT closeT : List Char) :
    Nat → Bool → Bool → List Char → LoopRes
  | _, inF, seen, [] => ⟨[], inF, false, seen, []⟩
  | 0, inF, seen, _ :: _ => ⟨[], inF, false, seen, []⟩
  | fuel + 1, false, seen, a :: r =>
    match strFind openT (a :: r) with
    | none =>
      -- keep a potential partial "<final>" at the end; text before it is dropped
      let c :=
        match lastIndexOf '<' (a :: r) with
        | none => []
        | some p =>
          let poss := (a :: r).drop p
          if poss.isPrefixOf openT then poss else []
      ⟨c, false, false, seen, []⟩
    | some j =>
      let res := finalLoop openT closeT fuel true true ((a :: r).drop (j + openT.length))
      { res with seenFinal := true }
  | fuel + 1, true, seen, a :: r =>
    match strFind closeT (a :: r) with
    | none =>
      let chunk := a :: r
      match lastIndexOf '<' chunk with
      | none => ⟨[], true, false, seen, chunk⟩
      | some p =>
        let poss := chunk.drop p
        if poss.isPrefixOf closeT then ⟨poss, true, false, seen, chunk.take p⟩
        else ⟨[], true, false, seen, chunk⟩
    | some k =>
      -- close found: emit up to it, set done, and break (rest discarded)
      ⟨[], false, true, seen, (a :: r).take k⟩

/-- `FinalAnswerFilter.feed` (lines 130–185). -/
def feed (st : FinalState) (text : List Char) : FinalState × List Char :=
  if st.done ∨ text = [] then (st, [])
  else
    let hr := ThoughtTagFilter.feed defaultTags st.hidden text
    if hr.2 = [] then ({ st with hidden := hr.1 }, [])
    else
      let s := st.carry ++ hr.2
      let res := finalLoop ("<final>".toList) ("</final>".toList)
        s.length st.inFinal st.seenFinal s
      (⟨hr.1, res.carry, res.inFinal, st.done || res.done, res.seenFinal⟩, res.out)

/-- Feed a sequence of chunks, collecting the per-call outputs. -/
def feedSeq (st : FinalState) : List (List Char) → FinalState × List (List Char)
  | [] => (st, [])
  | c :: cs =>
    let r1 := feed st c
    let r2 := feedSeq r1.1 cs
    (r2.1, r1.2 :: r2.2)

end FinalAnswerFilter

/-- A freshly constructed `FinalAnswerFilter`. -/
def freshFinal : FinalState :=
  ⟨freshTag, [], false, false, false⟩

/-- **C8.** Feeding a fresh `FinalAnswerFilter` the four chunks
`"前置<think>不该展示</think>"`, `"<final>你好"`, `"世界</final>尾巴"`, `"后续"` in order
returns per call exactly `""`, `"你好"`, `"世界"`, `""`: nothing is emitted
before the opening `<final>` or after the closing `</final>`, and hidden-tag
content before `<final>` is stripped without output. -/
theorem c8_final_filter_scenario :
    (FinalAnswerFilter.feedSeq freshFinal
      ["前置<think>不该展示</think>".toList, "<final>你好".toList,
        "世界</final>尾巴".toList, "后续".toList]).2
      = ["".toList, "你好".toList, "世界".toList, "".toList] := by
  decide

/-- **C3.** Once the `done` flag of a `FinalAnswerFilter` is set (the closing
`</final>` has been consumed), every subsequent `feed` call returns the empty
string, permanently, regardless of the input, and leaves the state unchanged. -/
theorem c3_done_is_permanent (st : FinalState) (h : st.done = true)
    (cs : List (List Char)) :
    FinalAnswerFilter.feedSeq st cs = (st, cs.map fun _ => ([] : List Char)) := by
  induction cs with
  | nil => rfl
  | cons c cs ih =>
    simp only [FinalAnswerFilter.feedSeq, FinalAnswerFilter.feed, h, true_or, if_pos,
      List.map_cons, ih]

/-- Witness for C3 at a concrete done state (the state reached after the C8
scenario) and concrete further inputs. -/
theorem c3_done_is_permanent_witness :
    ((FinalAnswerFilter.feedSeq freshFinal
        ["<final>你好</final>".toList]).1.done = true) ∧
      FinalAnswerFilter.feedSeq (FinalAnswerFilter.feedSeq freshFinal
          ["<final>你好</final>".toList]).1 ["after".toList, "<final>more</final>".toList]
        = ((FinalAnswerFilter.feedSeq freshFinal ["<final>你好</final>".toList]).1,
            [[], []]) :=
  ⟨by decide,
    c3_done_is_permanent _ (by decide) ["after".toList, "<final>more</final>".toList]⟩

/-! ### C4: the carry invariant of `ThoughtTagFilter` -/

/-- Formalisation of the claim's words: the carry contains a complete
recognized tag (`<tag>` or `</tag>` occurs in it as a substring). -/
def carryContainsTag (tags : List (List Char)) (c : List Char) : Bool :=
  tags.any fun t => (strFind (openTok t) c).isSome || (strFind (closeTok t) c).isSome

/-- Formalisation of the claim's words: the carry is a strict prefix of
`<tag>` or `</tag>` for some recognized tag name. -/
def isStrictTagFragment (tags : List (List Char)) (c : List Char) : Bool :=
  tags.any fun t =>
    (c.isPrefixOf (openTok t) && !(c == openTok t))
      || (c.isPrefixOf (closeTok t) && !(c == closeTok t))

/-- `updBest` never discards an already-found candidate. -/
theorem updBest_eq_none {best found isOpen t}
    (h : ThoughtTagFilter.updBest best found isOpen t = none) :
    best = none ∧ found = none := by
  cases found with
  | none => exact ⟨h, rfl⟩
  | some p =>
    cases best with
    | none => simp [ThoughtTagFilter.updBest] at h
    | some b =>
      obtain ⟨bp, bk, bt⟩ := b
      simp only [ThoughtTagFilter.updBest] at h
      split at h <;> simp at h

theorem isPrefixOf_self (p : List Char) : p.isPrefixOf p = true := by
  have := isPrefixOf_append_self p []
  rwa [List.append_nil] at this

theorem lastIndexOf_lt_length {c : Char} {l : List Char} {p : Nat}
    (h : lastIndexOf c l = some p) : p < l.length := by
  induction l generalizing p with
  | nil => simp [lastIndexOf] at h
  | cons a t ih =>
    rw [lastIndexOf] at h
    cases hlt : lastIndexOf c t with
    | some q =>
      rw [hlt] at h
      simp only [Option.some.injEq] at h
      have := ih hlt
      simp only [List.length_cons]
      omega
    | none =>
      rw [hlt] at h
      by_cases hac : a = c
      · simp only [hac, if_pos, Option.some.injEq] at h
        simp [← h]
      · simp [hac] at h

theorem findBest_eq_none {tags : List (List Char)} {s : List Char}
    (h : ThoughtTagFilter.findBest tags s = none) :
    ∀ t ∈ tags, strFind (openTok t) s = none ∧ strFind (closeTok t) s = none := by
  unfold ThoughtTagFilter.findBest at h
  induction tags with
  | nil => intro t ht; cases ht
  | cons t0 ts ih =>
    simp only [List.foldl_cons] at h
    -- peel the accumulator state after the first tag
    have hacc :
        ThoughtTagFilter.updBest
            (ThoughtTagFilter.updBest none (strFind (openTok t0) s) true t0)
            (strFind (closeTok t0) s) false t0 = none ∧
          ∀ t ∈ ts, strFind (openTok t) s = none ∧ strFind (closeTok t) s = none := by
      -- a foldl of updBest steps returning none forces its start to be none
      have key : ∀ (l : List (List Char)) (acc : Option (Nat × Bool × List Char)),
          List.foldl
              (fun best t =>
                ThoughtTagFilter.updBest
                  (ThoughtTagFilter.updBest best (strFind (openTok t) s) true t)
                  (strFind (closeTok t) s) false t) acc l = none →
            acc = none ∧ ∀ t ∈ l, strFind (openTok t) s = none ∧ strFind (closeTok t) s = none := by
        intro l
        induction l with
        | nil => intro acc hh; exact ⟨hh, by intro t ht; cases ht⟩
        | cons u us ihl =>
          intro acc hh
          simp only [List.foldl_cons] at hh
          obtain ⟨h1, h2⟩ := ihl _ hh
          obtain ⟨h3, h4⟩ := updBest_eq_none h1
          obtain ⟨h5, h6⟩ := updBest_eq_none h3
          refine ⟨h5, ?_⟩
          intro t ht
          rcases List.mem_cons.mp ht with rfl | ht
          · exact ⟨h6, h4⟩
          · exact h2 t ht
      exact key ts _ h
    obtain ⟨h1, h2⟩ := hacc
    obtain ⟨h3, h4⟩ := updBest_eq_none h1
    obtain ⟨h5, h6⟩ := updBest_eq_none h3
    intro t ht
    rcases List.mem_cons.mp ht with rfl | ht
    · exact ⟨h6, h4⟩
    · exact h2 t ht

theorem strFind_none_iff {pat l : List Char} :
    strFind pat l = none ↔ ∀ i, pat.isPrefixOf (l.drop i) = false := by
  induction l with
  | nil =>
    constructor
    · intro h i
      simp only [List.drop_nil]
      cases pat with
      | nil => simp [strFind] at h
      | cons a t => simp [List.isPrefixOf]
    · intro h
      cases pat with
      | nil => have := h 0; simp [List.isPrefixOf] at this
      | cons a t => simp
  | cons a t ih =>
    rw [strFind_cons]
    constructor
    · intro h i
      split at h
      · simp at h
      · cases i with
        | zero =>
          simp only [List.drop_zero]
          rename_i hnp
          exact Bool.not_eq_true _ ▸ (by simpa using hnp)
        | succ j =>
          have ht : strFind pat t = none := by
            cases hh : strFind pat t with
            | none => rfl
            | some v => rw [hh] at h; simp at h
          simpa using (ih.mp ht) j
    · intro h
      have h0 := h 0
      simp only [List.drop_zero] at h0
      simp only [h0, Bool.false_eq_true, if_false]
      have ht : strFind pat t = none := ih.mpr (fun i => by simpa using h (i + 1))
      simp [ht]

/-- The fragment retained by `split_partial_tag` is empty or a strict prefix
of a recognized tag token, provided no complete token occurs in the input. -/
theorem splitPartialTag_fragment {tags : List (List Char)} {r : List Char}
    (hnone : ∀ t ∈ tags, strFind (openTok t) r = none ∧ strFind (closeTok t) r = none) :
    (ThoughtTagFilter.splitPartialTag tags r).2 = []
      ∨ ((ThoughtTagFilter.splitPartialTag tags r).2 ≠ []
          ∧ isStrictTagFragment tags (ThoughtTagFilter.splitPartialTag tags r).2 = true) := by
  unfold ThoughtTagFilter.splitPartialTag
  cases hl : lastIndexOf '<' r with
  | none => exact Or.inl rfl
  | some p =>
    simp only
    split
    · rename_i hany
      right
      have hplt : p < r.length := lastIndexOf_lt_length hl
      have hnonempty : r.drop p ≠ [] := by
        intro hemp
        rw [List.drop_eq_nil_iff] at hemp
        omega
      refine ⟨hnonempty, ?_⟩
      rw [List.any_eq_true] at hany
      obtain ⟨t, ht, hor⟩ := hany
      rw [Bool.or_eq_true] at hor
      rw [isStrictTagFragment, List.any_eq_true]
      refine ⟨t, ht, ?_⟩
      rcases hor with hpre | hpre
      · have hne : ¬ r.drop p = openTok t := by
          intro heq
          have hnone' := (strFind_none_iff.mp (hnone t ht).1) p
          rw [heq, isPrefixOf_self] at hnone'
          cases hnone'
        simp [hpre, hne]
      · have hne : ¬ r.drop p = closeTok t := by
          intro heq
          have hnone' := (strFind_none_iff.mp (hnone t ht).2) p
          rw [heq, isPrefixOf_self] at hnone'
          cases hnone'
        simp [hpre, hne]
    · exact Or.inl rfl

theorem closeTok_length (t : List Char) : (closeTok t).length = t.length + 3 := by
  simp [closeTok]

theorem lastN_length_of_le {n : Nat} {l : List Char} (h : n ≤ l.length) :
    (lastN n l).length = n := by
  simp only [lastN, List.length_drop]
  omega

/-- The carry invariant that actually holds for the code: outside a hidden
tag the carry is empty or a strict prefix of a recognized token; inside tag
`t` it is merely shorter than the closing token `</t>` (it is a blind
`s[-keep:]` suffix of the buffer and may contain a complete `<tag>`). -/
def CarryOK (tags : List (List Char)) (st : TagState) : Prop :=
  (st.inTag = none →
      st.carry = [] ∨ (st.carry ≠ [] ∧ isStrictTagFragment tags st.carry = true))
    ∧ ∀ t, st.inTag = some t → st.carry.length < (closeTok t).length

theorem carryOK_empty (tags : List (List Char)) (inTag : Option (List Char)) :
    CarryOK tags ⟨inTag, []⟩ := by
  refine ⟨fun _ => Or.inl rfl, fun t _ => ?_⟩
  simp [closeTok_length]

theorem carryOK_inTag (tags : List (List Char)) (t c : List Char)
    (h : c.length < (closeTok t).length) : CarryOK tags ⟨some t, c⟩ := by
  refine ⟨fun hh => by simp at hh, fun u hu => ?_⟩
  have h2 : some t = some u := hu
  injection h2 with h1
  subst h1
  exact h

theorem tagLoop_carryOK (tags : List (List Char)) (s : List Char) :
    ∀ fuel inTag r, CarryOK tags (ThoughtTagFilter.tagLoop tags s fuel inTag r).1 := by
  intro fuel
  induction fuel with
  | zero =>
    intro inTag r
    cases r <;> exact carryOK_empty tags inTag
  | succ fuel ih =>
    intro inTag r
    cases r with
    | nil =>
      simp only [ThoughtTagFilter.tagLoop]
      exact carryOK_empty tags inTag
    | cons a r' =>
      cases inTag with
      | some t =>
        simp only [ThoughtTagFilter.tagLoop]
        cases hf : strFind (closeTok t) (a :: r') with
        | none =>
          simp only [hf]
          refine carryOK_inTag tags t _ ?_
          have hlen := closeTok_length t
          by_cases hc : 0 < (closeTok t).length - 1 ∧ (closeTok t).length - 1 ≤ s.length
          · rw [if_pos hc, lastN_length_of_le hc.2]
            omega
          · rw [if_neg hc]
            have hs : s.length < (closeTok t).length - 1 := by
              rcases not_and_or.mp hc with h1 | h1 <;> omega
            omega
        | some j =>
          simp only [hf]
          exact ih none _
      | none =>
        simp only [ThoughtTagFilter.tagLoop]
        cases hb : ThoughtTagFilter.findBest tags (a :: r') with
        | none =>
          simp only [hb]
          constructor
          · intro _
            exact splitPartialTag_fragment (findBest_eq_none hb)
          · intro u hu; simp at hu
        | some trip =>
          obtain ⟨p, isOpen, t⟩ := trip
          simp only [hb]
          exact ih _ _

theorem feed_carryOK (tags : List (List Char)) (st : TagState) (c : List Char)
    (hst : CarryOK tags st) : CarryOK tags (ThoughtTagFilter.feed tags st c).1 := by
  rw [ThoughtTagFilter.feed]
  by_cases hc : c = []
  · simpa [hc] using hst
  · simp only [hc, if_neg, not_false_iff]
    exact tagLoop_carryOK tags _ _ _ _

/-- **C4 (counterexample).** After the single call
`feed "<think>a<think>"` on a fresh filter, the carry is the full buffer
suffix `"<think>"`: it *contains a complete recognized tag* and is *not* a
strict prefix of any `<tag>`/`</tag>`, refuting the claimed invariant. -/
theorem c4_counterexample :
    (ThoughtTagFilter.feed defaultTags freshTag "<think>a<think>".toList).1.carry
        = "<think>".toList
      ∧ carryContainsTag defaultTags
          (ThoughtTagFilter.feed defaultTags freshTag "<think>a<think>".toList).1.carry
          = true
      ∧ isStrictTagFragment defaultTags
          (ThoughtTagFilter.feed defaultTags freshTag "<think>a<think>".toList).1.carry
          = false := by
  refine ⟨by decide, by decide, by decide⟩

/-- **C4 (amended).** For every sequence of `feed` calls on a fresh
`ThoughtTagFilter`, after each call: when the filter is not inside a hidden
tag, the carry is empty or a strict nonempty prefix of `<tag>`/`</tag>` for
a recognized tag; when it is inside tag `t`, the carry is strictly shorter
than the closing token `</t>` (so it never contains the active closing
tag), but it may contain a complete opening tag. -/
theorem c4_amended_carry_invariant (cs : List (List Char)) :
    ((ThoughtTagFilter.feedMany defaultTags freshTag cs).1.inTag = none →
        (ThoughtTagFilter.feedMany defaultTags freshTag cs).1.carry = []
          ∨ ((ThoughtTagFilter.feedMany defaultTags freshTag cs).1.carry ≠ []
              ∧ isStrictTagFragment defaultTags
                  (ThoughtTagFilter.feedMany defaultTags freshTag cs).1.carry = true))
      ∧ ∀ t, (ThoughtTagFilter.feedMany defaultTags freshTag cs).1.inTag = some t →
          (ThoughtTagFilter.feedMany defaultTags freshTag cs).1.carry.length
            < (closeTok t).length := by
  have main : ∀ (cs : List (List Char)) (st : TagState), CarryOK defaultTags st →
      CarryOK defaultTags (ThoughtTagFilter.feedMany defaultTags st cs).1 := by
    intro cs
    induction cs with
    | nil => intro st hst; exact hst
    | cons c cs ih =>
      intro st hst
      exact ih _ (feed_carryOK defaultTags st c hst)
  exact main cs freshTag (carryOK_empty defaultTags none)

/-! ### The event stream of `run_agent_streaming` (lines 420–569)

`_stream` is an async generator producing `(event_type, data)` tuples; a
background thread drives it, pushing each event onto a `queue.Queue`,
then an error tuple on exception, then a sentinel (`stream_to_queue`,
lines 537–544).  The caller loop pulls with `get(timeout=60.0)`, stops at
the sentinel, and on `queue.Empty` yields `("error", "Stream timeout")`
and breaks (lines 561–569). -/

/-- The `(event_type, data)` event vocabulary of `run_agent_streaming`. -/
inductive StreamEvent
  | memories (ms : List (List Char))
  | token (text : List Char)
  | toolStart (name input : List Char)
  | toolEnd (name : Option (List Char)) (output : List Char)
  | memoryExtracting
  | memorySaved (memType content : List Char)
  | memoryExtractionFailed (reason : List Char)
  | done (text : List Char)
  | error (msg : List Char)
deriving DecidableEq, Repr

/-- Events of `agent.astream_events` consumed by `_stream`: model stream
chunks (with their text content), tool start/end, and anything else. -/
inductive AgentEvent
  | chunk (content : List Char)
  | toolStart (name input : List Char)
  | toolEnd (output : List Char)
  | other
deriving DecidableEq, Repr

/-- Loop state of `_stream`'s `async for` (lines 478–504): the final-answer
filter, `full_response`, `raw_response`, `current_tool`, and the yielded
events so far. -/
structure StreamAcc where
  filter : FinalState
  full : List Char
  raw : List Char
  currentTool : Option (List Char)
  events : List StreamEvent
deriving DecidableEq, Repr

def initAcc : StreamAcc := ⟨freshFinal, [], [], none, []⟩

/-- One iteration of `_stream`'s event loop (lines 485–504). -/
def procAgentEvent (acc : StreamAcc) : AgentEvent → StreamAcc
  | .chunk c =>
    if c = [] then acc
    else
      let fr := FinalAnswerFilter.feed acc.filter c
      if fr.2 = [] then { acc with filter := fr.1, raw := acc.raw ++ c }
      else
        { acc with
          filter := fr.1, raw := acc.raw ++ c, full := acc.full ++ fr.2,
          events := acc.events ++ [.token fr.2] }
  | .toolStart n inp =>
    { acc with currentTool := some n, events := acc.events ++ [.toolStart n inp] }
  | .toolEnd out =>
    { acc with events := acc.events ++ [.toolEnd acc.currentTool out] }
  | .other => acc

def runAccOf (aevs : List AgentEvent) : StreamAcc :=
  aevs.foldl procAgentEvent initAcc

/-- The payload of the `done` event (lines 506–510): the degraded fallback
uses the hidden-tag-stripped raw text exactly when `full_response` is empty
and `raw_response` nonempty. -/
def donePayload (acc : StreamAcc) : List Char :=
  if acc.full = [] ∧ acc.raw ≠ [] then strip_hidden_reasoning acc.raw else acc.full

/-- The full event sequence `_stream` yields when it runs to completion:
`memories`, the loop events, `done`, `memory_extracting`, one
`memory_saved` per saved memory, and `memory_extraction_failed` when the
extraction phase raises (lines 448–526). -/
def streamEvents (mems : List (List Char)) (aevs : List AgentEvent)
    (saved : List (List Char × List Char)) (exErr : Option (List Char)) :
    List StreamEvent :=
  let acc := runAccOf aevs
  StreamEvent.memories mems :: acc.events
    ++ [StreamEvent.done (donePayload acc), StreamEvent.memoryExtracting]
    ++ saved.map (fun m => StreamEvent.memorySaved m.1 m.2)
    ++ (match exErr with
        | some e => [StreamEvent.memoryExtractionFailed e]
        | none => [])

/-- Items on the bridge queue: events, or the end-of-stream sentinel. -/
inductive QItem
  | ev (e : StreamEvent)
  | sentinel
deriving DecidableEq, Repr

/-- `stream_to_queue` (lines 537–544): the producer enqueues its yields in
order; if it raises after `produced`, an error tuple is enqueued; finally
the sentinel is enqueued exactly once. -/
def producerQueue (produced : List StreamEvent) (fail : Option (List Char)) :
    List QItem :=
  produced.map QItem.ev
    ++ (match fail with
        | some m => [QItem.ev (StreamEvent.error m)]
        | none => [])
    ++ [QItem.sentinel]

/-- What one blocking `event_queue.get(timeout=60.0)` call delivers. -/
inductive PullResult
  | item (q : QItem)
  | timeout
deriving DecidableEq, Repr

/-- The per-item timeout passed to `queue.Queue.get` (line 563). -/
def QUEUE_GET_TIMEOUT : ℚ := 60

/-- The consumer loop (lines 561–569): yield pulled events, stop at the
sentinel; on a timeout, yield a single synthetic error and stop without
pulling again. -/
def consumeLoop : List PullResult → List StreamEvent
  | [] => []
  | PullResult.timeout :: _ => [StreamEvent.error "Stream timeout".toList]
  | PullResult.item QItem.sentinel :: _ => []
  | PullResult.item (QItem.ev e) :: rest => e :: consumeLoop rest

theorem consumeLoop_events (l : List StreamEvent) (rest : List PullResult) :
    consumeLoop (l.map (fun e => PullResult.item (QItem.ev e)) ++ rest)
      = l ++ consumeLoop rest := by
  induction l with
  | nil => rfl
  | cons e t ih => simp [consumeLoop, ih]

/-- **C2.** A producer that yields `evs` and then raises `msg` results in the
consumer observing exactly `evs` followed by one error event and then
termination, and the end-of-stream sentinel is enqueued exactly once, after
everything else. -/
theorem c2_producer_failure (evs : List StreamEvent) (msg : List Char) :
    consumeLoop ((producerQueue evs (some msg)).map PullResult.item)
        = evs ++ [StreamEvent.error msg]
      ∧ (producerQueue evs (some msg)).count QItem.sentinel = 1
      ∧ (producerQueue evs (some msg)).getLast? = some QItem.sentinel := by
  refine ⟨?_, ?_, ?_⟩
  · rw [producerQueue]
    simp only [List.map_append, List.map_map, List.map_cons, List.map_nil]
    rw [show (evs.map (PullResult.item ∘ QItem.ev)) =
        evs.map (fun e => PullResult.item (QItem.ev e)) from rfl]
    rw [List.append_assoc, consumeLoop_events]
    rfl
  · rw [producerQueue]
    have hz : (evs.map QItem.ev).count QItem.sentinel = 0 := by
      rw [List.count_eq_zero]
      intro hmem
      rcases List.mem_map.mp hmem with ⟨e, -, he⟩
      cases he
    simp [List.count_append, hz, List.count_cons]
  · rw [producerQueue, List.append_assoc]
    rw [List.getLast?_append]
    rfl

/-- **C7.** Each consumer pull waits at most the fixed 60-unit timeout; when
a pull times out after the events `evs` were consumed, the iterator yields a
single synthetic timeout error and terminates immediately — the result does
not depend on anything (`rest`) that might arrive later, even if the
producer is still running. -/
theorem c7_consumer_timeout (evs : List StreamEvent) (rest : List PullResult) :
    consumeLoop (evs.map (fun e => PullResult.item (QItem.ev e))
        ++ PullResult.timeout :: rest)
      = evs ++ [StreamEvent.error "Stream timeout".toList]
      ∧ QUEUE_GET_TIMEOUT = 60 := by
  exact ⟨by rw [consumeLoop_events]; rfl, rfl⟩

/-! ### Event classification and session-shape lemmas -/

/-- Events yielded inside the agent event loop (before `done`). -/
def isPhase1 : StreamEvent → Bool
  | .token _ => true
  | .toolStart _ _ => true
  | .toolEnd _ _ => true
  | _ => false

def isDoneEv : StreamEvent → Bool
  | .done _ => true
  | _ => false

def isErrorEv : StreamEvent → Bool
  | .error _ => true
  | _ => false

/-- Events that may legitimately follow the `done` event of a session:
the memory-extraction phase plus a trailing error. -/
def allowedAfterDone : StreamEvent → Bool
  | .memoryExtracting => true
  | .memorySaved _ _ => true
  | .memoryExtractionFailed _ => true
  | .error _ => true
  | _ => false

theorem procAgentEvent_events_phase1 (acc : StreamAcc) (ae : AgentEvent)
    (h : ∀ e ∈ acc.events, isPhase1 e = true) :
    ∀ e ∈ (procAgentEvent acc ae).events, isPhase1 e = true := by
  cases ae with
  | chunk c =>
    by_cases hc : c = []
    · simpa [procAgentEvent, hc] using h
    · simp only [procAgentEvent, hc, if_neg, not_false_iff]
      by_cases hv : (FinalAnswerFilter.feed acc.filter c).2 = []
      · simpa [hv] using h
      · simp only [hv, if_neg, not_false_iff]
        intro e he
        rcases List.mem_append.mp he with h1 | h1
        · exact h e h1
        · rcases List.mem_singleton.mp h1 with rfl
          rfl
  | toolStart n inp =>
    intro e he
    rcases List.mem_append.mp he with h1 | h1
    · exact h e h1
    · rcases List.mem_singleton.mp h1 with rfl
      rfl
  | toolEnd out =>
    intro e he
    rcases List.mem_append.mp he with h1 | h1
    · exact h e h1
    · rcases List.mem_singleton.mp h1 with rfl
      rfl
  | other => exact h

theorem runAccOf_events_phase1 (aevs : List AgentEvent) :
    ∀ e ∈ (runAccOf aevs).events, isPhase1 e = true := by
  have main : ∀ (l : List AgentEvent) (acc : StreamAcc),
      (∀ e ∈ acc.events, isPhase1 e = true) →
      ∀ e ∈ (l.foldl procAgentEvent acc).events, isPhase1 e = true := by
    intro l
    induction l with
    | nil => intro acc h; simpa using h
    | cons ae rest ih =>
      intro acc h
      exact ih _ (procAgentEvent_events_phase1 acc ae h)
  exact main aevs initAcc (by intro e he; cases he)

theorem phase1_not_done {e : StreamEvent} (h : isPhase1 e = true) :
    isDoneEv e = false := by
  cases e <;> first | rfl | cases h

theorem phase1_not_error {e : StreamEvent} (h : isPhase1 e = true) :
    isErrorEv e = false := by
  cases e <;> first | rfl | cases h

/-- The payload of the first `done` event in a list. -/
def firstDonePayload : List StreamEvent → Option (List Char)
  | [] => none
  | StreamEvent.done t :: _ => some t
  | _ :: rest => firstDonePayload rest

theorem firstDonePayload_append (l : List StreamEvent) (d : List Char)
    (rest : List StreamEvent) (h : ∀ e ∈ l, isDoneEv e = false) :
    firstDonePayload (l ++ StreamEvent.done d :: rest) = some d := by
  induction l with
  | nil => rfl
  | cons e t ih =>
    have he := h e (List.mem_cons_self _ _)
    have ih' := ih (fun x hx => h x (List.mem_cons_of_mem _ hx))
    cases e with
    | memories a => simpa [firstDonePayload] using ih'
    | token a => simpa [firstDonePayload] using ih'
    | toolStart a b => simpa [firstDonePayload] using ih'
    | toolEnd a b => simpa [firstDonePayload] using ih'
    | memoryExtracting => simpa [firstDonePayload] using ih'
    | memorySaved a b => simpa [firstDonePayload] using ih'
    | memoryExtractionFailed a => simpa [firstDonePayload] using ih'
    | done a => simp [isDoneEv] at he
    | error a => simpa [firstDonePayload] using ih'

/-- The memory-extraction phase of a session's event sequence. -/
def sessionTail (saved : List (List Char × List Char))
    (exErr : Option (List Char)) : List StreamEvent :=
  StreamEvent.memoryExtracting
    :: (saved.map (fun m => StreamEvent.memorySaved m.1 m.2)
      ++ (match exErr with
          | some e => [StreamEvent.memoryExtractionFailed e]
          | none => []))

/-- Normal form of a complete session event sequence. -/
theorem streamEvents_eq (mems : List (List Char)) (aevs : List AgentEvent)
    (saved : List (List Char × List Char)) (exErr : Option (List Char)) :
    streamEvents mems aevs saved exErr
      = (StreamEvent.memories mems :: (runAccOf aevs).events)
        ++ StreamEvent.done (donePayload (runAccOf aevs))
          :: sessionTail saved exErr := by
  simp [streamEvents, sessionTail]

theorem sessionHead_not_done (mems : List (List Char)) (aevs : List AgentEvent) :
    ∀ e ∈ StreamEvent.memories mems :: (runAccOf aevs).events, isDoneEv e = false := by
  intro e he
  rcases List.mem_cons.mp he with rfl | he
  · rfl
  · exact phase1_not_done (runAccOf_events_phase1 aevs e he)

theorem sessionHead_not_error (mems : List (List Char)) (aevs : List AgentEvent) :
    ∀ e ∈ StreamEvent.memories mems :: (runAccOf aevs).events, isErrorEv e = false := by
  intro e he
  rcases List.mem_cons.mp he with rfl | he
  · rfl
  · exact phase1_not_error (runAccOf_events_phase1 aevs e he)

/-- **C9 (counterexample).** For the single stream chunk `"<final></final>"`
the model *did* emit a final tag (`seenFinal` is true), yet the degraded
fallback branch is taken (`full_response` empty, `raw_response` nonempty)
and the `done` payload is the stripped raw text, not the accumulated final
text — so the fallback is not applied "exactly when `sawFinal` is false". -/
theorem c9_counterexample :
    (runAccOf [AgentEvent.chunk "<final></final>".toList]).full = []
      ∧ (runAccOf [AgentEvent.chunk "<final></final>".toList]).raw ≠ []
      ∧ (runAccOf [AgentEvent.chunk "<final></final>".toList]).filter.seenFinal = true
      ∧ donePayload (runAccOf [AgentEvent.chunk "<final></final>".toList])
          ≠ (runAccOf [AgentEvent.chunk "<final></final>".toList]).full := by
  exact ⟨by decide, by decide, by decide, by decide⟩

/-- **C9 (amended).** Once the producer stream ends, the session's `done`
event carries the hidden-tag-stripped raw text exactly when the accumulated
visible final-section text is empty and the raw text is nonempty; otherwise
it carries the accumulated final-section text.  The filter's `seen_final`
flag is not consulted. -/
theorem c9_amended_fallback_condition (mems : List (List Char))
    (aevs : List AgentEvent) (saved : List (List Char × List Char))
    (exErr : Option (List Char)) :
    firstDonePayload (streamEvents mems aevs saved exErr)
      = some (if (runAccOf aevs).full = [] ∧ (runAccOf aevs).raw ≠ []
          then strip_hidden_reasoning (runAccOf aevs).raw
          else (runAccOf aevs).full) := by
  rw [streamEvents_eq,
    firstDonePayload_append _ _ _ (sessionHead_not_done mems aevs)]
  rfl

/-! ### C5: terminal events of one session -/

/-- Everything after the first `done` event. -/
def afterFirstDone (l : List StreamEvent) : List StreamEvent :=
  (l.dropWhile (fun e => !isDoneEv e)).drop 1

theorem consume_queue_ok (evs : List StreamEvent) :
    consumeLoop ((producerQueue evs none).map PullResult.item) = evs := by
  rw [producerQueue]
  simp only [List.map_append, List.map_map, List.map_cons, List.map_nil,
    List.nil_append, List.append_nil]
  rw [show evs.map (PullResult.item ∘ QItem.ev)
      = evs.map (fun e => PullResult.item (QItem.ev e)) from rfl]
  rw [consumeLoop_events]
  simp [consumeLoop]

theorem consume_queue_fail (evs : List StreamEvent) (msg : List Char) :
    consumeLoop ((producerQueue evs (some msg)).map PullResult.item)
      = evs ++ [StreamEvent.error msg] := by
  rw [producerQueue]
  simp only [List.map_append, List.map_map, List.map_cons, List.map_nil]
  rw [show evs.map (PullResult.item ∘ QItem.ev)
      = evs.map (fun e => PullResult.item (QItem.ev e)) from rfl]
  rw [List.append_assoc, consumeLoop_events]
  rfl

/-- Consumer view of a session whose producer runs to completion. -/
def observedSuccess (mems : List (List Char)) (aevs : List AgentEvent)
    (saved : List (List Char × List Char)) (exErr : Option (List Char)) :
    List StreamEvent :=
  consumeLoop ((producerQueue (streamEvents mems aevs saved exErr) none).map
    PullResult.item)

/-- Consumer view of a session whose producer raises `msg` after its first
`n` yields. -/
def observedProducerFail (mems : List (List Char)) (aevs : List AgentEvent)
    (saved : List (List Char × List Char)) (exErr : Option (List Char))
    (n : Nat) (msg : List Char) : List StreamEvent :=
  consumeLoop ((producerQueue ((streamEvents mems aevs saved exErr).take n)
      (some msg)).map PullResult.item)

/-- Consumer view of a session where the consumer's `k+1`-st pull times
out (the producer being arbitrarily slow past its first `k` events). -/
def observedTimeout (mems : List (List Char)) (aevs : List AgentEvent)
    (saved : List (List Char × List Char)) (exErr : Option (List Char))
    (k : Nat) : List StreamEvent :=
  consumeLoop (((streamEvents mems aevs saved exErr).take k).map
      (fun e => PullResult.item (QItem.ev e)) ++ [PullResult.timeout])

theorem dropWhile_append_of_all (p : StreamEvent → Bool) (A C : List StreamEvent)
    (hA : ∀ e ∈ A, p e = true) : (A ++ C).dropWhile p = C.dropWhile p := by
  induction A with
  | nil => rfl
  | cons a t ih =>
    have ha := hA a (List.mem_cons_self _ _)
    simp only [List.cons_append, List.dropWhile_cons, ha, if_pos]
    exact ih (fun x hx => hA x (List.mem_cons_of_mem _ hx))

theorem afterFirstDone_split (A : List StreamEvent) (d : List Char)
    (B : List StreamEvent) (hA : ∀ e ∈ A, isDoneEv e = false) :
    afterFirstDone (A ++ StreamEvent.done d :: B) = B := by
  unfold afterFirstDone
  rw [dropWhile_append_of_all _ A _ (fun e he => by simp [hA e he])]
  simp [List.dropWhile_cons, isDoneEv]

theorem afterFirstDone_of_no_done (l : List StreamEvent)
    (h : ∀ e ∈ l, isDoneEv e = false) : afterFirstDone l = [] := by
  unfold afterFirstDone
  have : l.dropWhile (fun e => !isDoneEv e) = [] := by
    induction l with
    | nil => rfl
    | cons a t ih =>
      have ha := h a (List.mem_cons_self _ _)
      simp only [List.dropWhile_cons, ha, Bool.not_false, if_pos]
      exact ih (fun x hx => h x (List.mem_cons_of_mem _ hx))
  simp [this]

theorem countP_zero_of_all_false (p : StreamEvent → Bool) (l : List StreamEvent)
    (h : ∀ e ∈ l, p e = false) : l.countP p = 0 := by
  rw [List.countP_eq_zero]
  intro a ha
  simp [h a ha]

/-- Core shape lemma: a session cut after `n` events and closed with a
synthetic/producer error as the last event. -/
theorem observed_cut_props (A : List StreamEvent) (d : List Char)
    (B : List StreamEvent) (n : Nat) (msg : List Char)
    (hAd : ∀ e ∈ A, isDoneEv e = false) (hAe : ∀ e ∈ A, isErrorEv e = false)
    (hBa : ∀ e ∈ B, allowedAfterDone e = true)
    (hBd : ∀ e ∈ B, isDoneEv e = false) (hBe : ∀ e ∈ B, isErrorEv e = false) :
    ((A ++ StreamEvent.done d :: B).take n
        ++ [StreamEvent.error msg]).countP (fun e => isDoneEv e) ≤ 1
      ∧ ((A ++ StreamEvent.done d :: B).take n
          ++ [StreamEvent.error msg]).countP (fun e => isErrorEv e) = 1
      ∧ ((A ++ StreamEvent.done d :: B).take n
          ++ [StreamEvent.error msg]).getLast? = some (StreamEvent.error msg)
      ∧ (afterFirstDone ((A ++ StreamEvent.done d :: B).take n
          ++ [StreamEvent.error msg])).all allowedAfterDone = true := by
  have htake : (A ++ StreamEvent.done d :: B).take n
      = A.take n ++ (StreamEvent.done d :: B).take (n - A.length) :=
    List.take_append_eq_append_take
  have hlast : ∀ (X : List StreamEvent),
      (X ++ [StreamEvent.error msg]).getLast? = some (StreamEvent.error msg) := by
    intro X
    rw [List.getLast?_append]
    rfl
  by_cases hn : n ≤ A.length
  · have h0 : n - A.length = 0 := by omega
    rw [htake, h0]
    simp only [List.take_zero, List.append_nil]
    have hAn_d : ∀ e ∈ A.take n, isDoneEv e = false :=
      fun e he => hAd e (List.take_subset _ _ he)
    have hAn_e : ∀ e ∈ A.take n, isErrorEv e = false :=
      fun e he => hAe e (List.take_subset _ _ he)
    refine ⟨?_, ?_, hlast _, ?_⟩
    · rw [List.countP_append, countP_zero_of_all_false _ _ hAn_d]
      simp [List.countP_cons, isDoneEv]
    · rw [List.countP_append, countP_zero_of_all_false _ _ hAn_e]
      simp [List.countP_cons, isErrorEv]
    · rw [afterFirstDone_of_no_done]
      · rfl
      · intro e he
        rcases List.mem_append.mp he with h1 | h1
        · exact hAn_d e h1
        · rcases List.mem_singleton.mp h1 with rfl
          rfl
  · have hA' : A.take n = A := List.take_of_length_le (by omega)
    rcases hm : n - A.length with _ | m
    · omega
    rw [htake, hA', hm]
    simp only [List.take_succ_cons]
    have hBm_a : ∀ e ∈ B.take m, allowedAfterDone e = true :=
      fun e he => hBa e (List.take_subset _ _ he)
    have hBm_d : ∀ e ∈ B.take m, isDoneEv e = false :=
      fun e he => hBd e (List.take_subset _ _ he)
    have hBm_e : ∀ e ∈ B.take m, isErrorEv e = false :=
      fun e he => hBe e (List.take_subset _ _ he)
    refine ⟨?_, ?_, hlast _, ?_⟩
    · rw [List.append_assoc]
      rw [List.countP_append, countP_zero_of_all_false _ _ hAd]
      simp only [List.cons_append, List.countP_cons, Nat.zero_add]
      rw [List.countP_append, countP_zero_of_all_false _ _ hBm_d]
      simp [isDoneEv, isErrorEv]
    · rw [List.append_assoc]
      rw [List.countP_append, countP_zero_of_all_false _ _ hAe]
      simp only [List.cons_append, List.countP_cons, Nat.zero_add]
      rw [List.countP_append, countP_zero_of_all_false _ _ hBm_e]
      simp [isDoneEv, isErrorEv]
    · rw [List.append_assoc, List.cons_append,
        show (A ++ StreamEvent.done d :: (B.take m ++ [StreamEvent.error msg]))
          = A ++ StreamEvent.done d :: (B.take m ++ [StreamEvent.error msg]) from rfl]
      rw [afterFirstDone_split A d _ hAd]
      rw [List.all_eq_true]
      intro e he
      rcases List.mem_append.mp he with h1 | h1
      · exact hBm_a e h1
      · rcases List.mem_singleton.mp h1 with rfl
        rfl

theorem sessionTail_props (saved : List (List Char × List Char))
    (exErr : Option (List Char)) :
    ∀ e ∈ sessionTail saved exErr,
      allowedAfterDone e = true ∧ isDoneEv e = false ∧ isErrorEv e = false := by
  intro e he
  rw [sessionTail.eq_def] at he
  rcases List.mem_cons.mp he with rfl | he
  · exact ⟨rfl, rfl, rfl⟩
  rcases List.mem_append.mp he with h1 | h1
  · rcases List.mem_map.mp h1 with ⟨m, -, rfl⟩
    exact ⟨rfl, rfl, rfl⟩
  · cases exErr with
    | some e0 =>
      rcases List.mem_singleton.mp h1 with rfl
      exact ⟨rfl, rfl, rfl⟩
    | none => cases h1

/-- **C5 (counterexample).** Even in the simplest successful session, the
`done` event is followed by the `memory_extracting` event (and possibly
`memory_saved` / `memory_extraction_failed` events), so it is not true that
no events follow the terminating `done`. -/
theorem c5_counterexample :
    observedSuccess [] [] [] none
        = [StreamEvent.memories [], StreamEvent.done [],
            StreamEvent.memoryExtracting]
      ∧ afterFirstDone (observedSuccess [] [] [] none)
          = [StreamEvent.memoryExtracting] := by
  exact ⟨by decide, by decide⟩

/-- **C5 (amended).** For every session: a successfully completed session
contains exactly one `done` and no `error`, and everything after the `done`
belongs to the memory-extraction phase; a session cut short by a producer
exception or by a consumer timeout contains at most one `done` and exactly
one `error`, the `error` is the last observed event, and everything after a
`done` is a memory-extraction event or that final `error`. -/
theorem c5_amended_terminal_events (mems : List (List Char))
    (aevs : List AgentEvent) (saved : List (List Char × List Char))
    (exErr : Option (List Char)) (n k : Nat) (msg : List Char) :
    ((observedSuccess mems aevs saved exErr).countP (fun e => isDoneEv e) = 1
      ∧ (observedSuccess mems aevs saved exErr).countP (fun e => isErrorEv e) = 0
      ∧ (afterFirstDone (observedSuccess mems aevs saved exErr)).all
          allowedAfterDone = true)
    ∧ ((observedProducerFail mems aevs saved exErr n msg).countP
          (fun e => isDoneEv e) ≤ 1
      ∧ (observedProducerFail mems aevs saved exErr n msg).countP
          (fun e => isErrorEv e) = 1
      ∧ (observedProducerFail mems aevs saved exErr n msg).getLast?
          = some (StreamEvent.error msg)
      ∧ (afterFirstDone (observedProducerFail mems aevs saved exErr n msg)).all
          allowedAfterDone = true)
    ∧ ((observedTimeout mems aevs saved exErr k).countP
          (fun e => isDoneEv e) ≤ 1
      ∧ (observedTimeout mems aevs saved exErr k).countP
          (fun e => isErrorEv e) = 1
      ∧ (observedTimeout mems aevs saved exErr k).getLast?
          = some (StreamEvent.error "Stream timeout".toList)
      ∧ (afterFirstDone (observedTimeout mems aevs saved exErr k)).all
          allowedAfterDone = true) := by
  have hTail := sessionTail_props saved exErr
  have hAd := sessionHead_not_done mems aevs
  have hAe := sessionHead_not_error mems aevs
  have hBa : ∀ e ∈ sessionTail saved exErr, allowedAfterDone e = true :=
    fun e he => (hTail e he).1
  have hBd : ∀ e ∈ sessionTail saved exErr, isDoneEv e = false :=
    fun e he => (hTail e he).2.1
  have hBe : ∀ e ∈ sessionTail saved exErr, isErrorEv e = false :=
    fun e he => (hTail e he).2.2
  refine ⟨?_, ?_, ?_⟩
  · rw [observedSuccess, consume_queue_ok, streamEvents_eq]
    refine ⟨?_, ?_, ?_⟩
    · rw [List.countP_append, countP_zero_of_all_false _ _ hAd,
        List.countP_cons, countP_zero_of_all_false _ _ hBd]
      rfl
    · rw [List.countP_append, countP_zero_of_all_false _ _ hAe,
        List.countP_cons, countP_zero_of_all_false _ _ hBe]
      rfl
    · rw [afterFirstDone_split _ _ _ hAd, List.all_eq_true]
      exact hBa
  · rw [observedProducerFail, consume_queue_fail, streamEvents_eq]
    exact observed_cut_props _ _ _ n msg hAd hAe hBa hBd hBe
  · rw [observedTimeout, consumeLoop_events, streamEvents_eq]
    have := observed_cut_props
      (StreamEvent.memories mems :: (runAccOf aevs).events)
      (donePayload (runAccOf aevs))
      (sessionTail saved exErr)
      k ("Stream timeout".toList) hAd hAe hBa hBd hBe
    simpa [consumeLoop] using this

/-! ### Memory deduplication (`src/memory/llm_extractor.py`, lines 125–211)

`is_duplicate_memory` searches the store for similar records, and reports a
duplicate when some returned item has the same `type` and a present,
non-`None` `score` (a distance; `similarity = 1 - score`) with
`similarity ≥ threshold` (default 0.85).  Any exception from the search is
logged and the function returns `False`.  `extract_memories_with_fallback`
keeps exactly the candidates for which `is_duplicate_memory` is false. -/

/-- One item returned by `store.asearch`: the stored value's `type` field
and, when the `score` attribute exists and is not `None`, its distance. -/
structure SearchItem where
  itemType : List Char
  score : Option ℚ
deriving DecidableEq, Repr

/-- An extracted memory candidate (`type`, `content`). -/
structure ExtractedMemory where
  memType : List Char
  content : List Char
deriving DecidableEq, Repr

/-- The default `similarity_threshold` of `is_duplicate_memory`. -/
def SIMILARITY_THRESHOLD : ℚ := 85 / 100

/-- `is_duplicate_memory` (lines 125–165); its `store.asearch` call is
modelled by its outcome: an exception or the returned item list. -/
def is_duplicate_memory (searchResult : Except (List Char) (List SearchItem))
    (newMemory : ExtractedMemory) (threshold : ℚ) : Bool :=
  match searchResult with
  | .error _ => false
  | .ok items =>
    items.any fun it =>
      it.itemType == newMemory.memType
        && (match it.score with
            | some sc => decide ((1 : ℚ) - sc ≥ threshold)
            | none => false)

/-- The dedup loop of `extract_memories_with_fallback` (lines 202–209):
keep exactly the candidates not reported as duplicates, in order. -/
def dedupFilter (isDup : ExtractedMemory → Bool) :
    List ExtractedMemory → List ExtractedMemory
  | [] => []
  | m :: ms => if isDup m then dedupFilter isDup ms else m :: dedupFilter isDup ms

/-- **C6.** A candidate is reported duplicate iff the similarity search
succeeds and returns an item of the same type whose similarity `1 - score`
is at or above the 0.85 threshold; a failed search reports "not a
duplicate", so the candidate survives dedup; a same-type item at
similarity 0.90 (distance 0.10) drops the candidate while one at 0.80
(distance 0.20) does not. -/
theorem c6_dedup_threshold (sr : Except (List Char) (List SearchItem))
    (mem : ExtractedMemory) :
    (is_duplicate_memory sr mem SIMILARITY_THRESHOLD = true
      ↔ ∃ items, sr = Except.ok items
          ∧ ∃ it ∈ items, it.itemType = mem.memType
            ∧ ∃ sc, it.score = some sc
              ∧ (1 : ℚ) - sc ≥ SIMILARITY_THRESHOLD)
    ∧ (∀ e, is_duplicate_memory (Except.error e) mem SIMILARITY_THRESHOLD = false)
    ∧ (∀ e mems,
        dedupFilter
            (fun m => is_duplicate_memory (Except.error e) m SIMILARITY_THRESHOLD)
            mems
          = mems)
    ∧ is_duplicate_memory
        (Except.ok [⟨mem.memType, some (1 / 10)⟩]) mem SIMILARITY_THRESHOLD = true
    ∧ is_duplicate_memory
        (Except.ok [⟨mem.memType, some (2 / 10)⟩]) mem SIMILARITY_THRESHOLD
        = false := by
  refine ⟨?_, fun e => rfl, ?_, ?_, ?_⟩
  · cases sr with
    | error e =>
      constructor
      · intro h; cases h
      · rintro ⟨items, heq, -⟩; cases heq
    | ok items =>
      simp only [is_duplicate_memory, List.any_eq_true]
      constructor
      · rintro ⟨it, hit, hcond⟩
        rw [Bool.and_eq_true] at hcond
        refine ⟨items, rfl, it, hit, beq_iff_eq.mp hcond.1, ?_⟩
        cases hsc : it.score with
        | none => rw [hsc] at hcond; cases hcond.2
        | some sc =>
          rw [hsc] at hcond
          exact ⟨sc, rfl, of_decide_eq_true hcond.2⟩
      · rintro ⟨items2, heq, it, hit, hty, sc, hsc, hge⟩
        injection heq with h2
        subst h2
        refine ⟨it, hit, ?_⟩
        rw [Bool.and_eq_true, hsc]
        exact ⟨beq_iff_eq.mpr hty, decide_eq_true hge⟩
  · intro e mems
    have hf : (fun m => is_duplicate_memory (Except.error e) m SIMILARITY_THRESHOLD)
        = fun _ => false := rfl
    rw [hf]
    induction mems with
    | nil => rfl
    | cons m ms ih => simp [dedupFilter, ih]
  · simp only [is_duplicate_memory, List.any_cons, List.any_nil, Bool.or_false]
    simp [SIMILARITY_THRESHOLD]
    norm_num
  · simp only [is_duplicate_memory, List.any_cons, List.any_nil, Bool.or_false]
    simp [SIMILARITY_THRESHOLD]
    norm_num

/-! ### Fallback pattern extractor (`src/memory/extractor.py`, lines 21–101)

`extract_memories_from_message` runs two ordered regex-pattern chains
(preferences then interests); for each chain, the first pattern whose
`re.findall` result is nonempty and whose cleaned first match (groups
joined, surrounding punctuation stripped) is longer than 2 yields exactly
one memory of that type with content `"用户" + cleaned`, and the chain stops.
The Python regex engine (`re.findall`) is external to the repository, so
it is abstracted as an arbitrary function from a pattern and a message to
the list of matches, each match a list of captured groups (a plain string
match is the one-group case). -/

def PREFERENCE_PATTERNS : List (List Char) :=
  [ "记住[我]?(.\x7b2,30\x7d?)(?:[，。！？,\\.!?]|$)".toList
  , "我(喜欢|偏好|习惯|倾向于?)(.\x7b2,30\x7d?)(?:[，。！？,\\.!?]|$)".toList
  , "以后(.\x7b2,30\x7d?)(?:[，。！？,\\.!?]|$)".toList
  , "下次(.\x7b2,30\x7d?)(?:[，。！？,\\.!?]|$)".toList
  , "我?(现在)?偏好(.\x7b2,30\x7d?)(?:[，。！？,\\.!?]|$)".toList
  , "改成(.\x7b2,30\x7d?)(?:[，。！？,\\.!?]|$)".toList
  , "我?(想|要|希望)(.\x7b2,30\x7d?)(?:[，。！？,\\.!?]|$)".toList
  , "(?:请|麻烦)?记得?(.\x7b2,30\x7d?)(?:[，。！？,\\.!?]|$)".toList
  , "(?:请|麻烦)?帮我记住(.\x7b2,30\x7d?)(?:[，。！？,\\.!?]|$)".toList
  , "(?:以后|下次)?不要忘记(.\x7b2,30\x7d?)(?:[，。！？,\\.!?]|$)".toList
  , "(?:能|可以)?把(.\x7b2,30\x7d?)记下来(?:[，。！？,\\.!?]|$)".toList
  , "不再(?:是)?(.\x7b2,30\x7d?)了(?:[，。！？,\\.!?]|$)".toList
  , "现在(?:是|习惯|喜欢)?(.\x7b2,30\x7d?)(?:[，。！？,\\.!?]|$)".toList
  , "(?:从现在起|今后)(.\x7b2,30\x7d?)(?:[，。！？,\\.!?]|$)".toList
  , "换成(.\x7b2,30\x7d?)(?:[，。！？,\\.!?]|$)".toList ]

def INTEREST_PATTERNS : List (List Char) :=
  [ "我(对|关注|感兴趣)(.\x7b2,30\x7d?)(?:[，。！？,\\.!?]|$)".toList
  , "帮我关注(.\x7b2,30\x7d?)(?:[，。！？,\\.!?]|$)".toList
  , "(?:想|要)?了解(.\x7b2,30\x7d?)(?:[，。！？,\\.!?]|$)".toList
  , "想知道(.\x7b2,30\x7d?)(?:[，。！？,\\.!?]|$)".toList
  , "关注一下(.\x7b2,30\x7d?)(?:[，。！？,\\.!?]|$)".toList
  , "(?:请|麻烦)?推荐(.\x7b2,30\x7d?)(?:[，。！？,\\.!?]|$)".toList ]

/-- The character set of `content.strip("，。！？,.!?")`. -/
def PUNCT_STRIP_SET : List Char := "，。！？,.!?".toList

/-- Python `str.strip(chars)`: drop those characters from both ends. -/
def pyStripPunct (l : List Char) : List Char :=
  ((l.dropWhile (fun c => PUNCT_STRIP_SET.contains c)).reverse.dropWhile
      (fun c => PUNCT_STRIP_SET.contains c)).reverse

/-- One category loop of `extract_memories_from_message` (lines 66–82 for
preferences, 85–99 for interests): try the patterns in order; the first one
with a nonempty match list whose cleaned content passes
`content and len(content) > 2` contributes one memory and stops the loop;
a match whose cleaned content fails the check does not stop the loop. -/
def firstCategoryMemory
    (findall : List Char → List Char → List (List (List Char)))
    (msg : List Char) (memType : List Char) :
    List (List Char) → Option ExtractedMemory
  | [] => none
  | p :: ps =>
    match findall p msg with
    | [] => firstCategoryMemory findall msg memType ps
    | m :: _ =>
      let content := pyStripPunct m.flatten
      if content ≠ [] ∧ 2 < content.length
      then some ⟨memType, "用户".toList ++ content⟩
      else firstCategoryMemory findall msg memType ps

/-- `extract_memories_from_message` (lines 53–101), parametrised by the
regex engine. -/
def extract_memories_from_message
    (findall : List Char → List Char → List (List (List Char)))
    (msg : List Char) : List ExtractedMemory :=
  (match firstCategoryMemory findall msg "preference".toList PREFERENCE_PATTERNS with
   | some m => [m]
   | none => [])
  ++ (match firstCategoryMemory findall msg "interest".toList INTEREST_PATTERNS with
      | some m => [m]
      | none => [])

theorem dropWhile_head_false (p : Char → Bool) (l : List Char) {h : Char}
    {t' : List Char} (heq : l.dropWhile p = h :: t') : p h = false := by
  induction l with
  | nil => cases heq
  | cons a t ih =>
    rw [List.dropWhile_cons] at heq
    by_cases hp : p a = true
    · rw [if_pos hp] at heq
      exact ih heq
    · rw [if_neg hp] at heq
      injection heq with h1 h2
      subst h1
      simpa using hp

theorem pyStripPunct_reverse_eq (x : List Char) :
    (pyStripPunct x).reverse
      = (x.dropWhile (fun c => PUNCT_STRIP_SET.contains c)).reverse.dropWhile
          (fun c => PUNCT_STRIP_SET.contains c) := by
  rw [pyStripPunct, List.reverse_reverse]

/-- Prepending `"用户"` to an already-stripped nonempty content is stable
under a further `strip`: the first character `'用'` and the last character
of the stripped content are both outside the strip set. -/
theorem pyStripPunct_marker (x : List Char) (hc : pyStripPunct x ≠ []) :
    pyStripPunct ("用户".toList ++ pyStripPunct x)
      = "用户".toList ++ pyStripPunct x := by
  have hyong : PUNCT_STRIP_SET.contains '用' = false := by decide
  cases hcr : (pyStripPunct x).reverse with
  | nil =>
    exfalso
    exact hc (by simpa using congrArg List.reverse hcr)
  | cons h t =>
    have hh : PUNCT_STRIP_SET.contains h = false :=
      dropWhile_head_false _ _ (pyStripPunct_reverse_eq x ▸ hcr)
    rw [pyStripPunct]
    have step1 : ("用户".toList ++ pyStripPunct x).dropWhile
        (fun c => PUNCT_STRIP_SET.contains c) = "用户".toList ++ pyStripPunct x := by
      show (('用' :: '户' :: pyStripPunct x).dropWhile
        (fun c => PUNCT_STRIP_SET.contains c)) = _
      rw [List.dropWhile_cons, if_neg (by decide)]
      rfl
    rw [step1]
    have step2 : ("用户".toList ++ pyStripPunct x).reverse
        = h :: (t ++ ['户', '用']) := by
      rw [List.reverse_append, hcr]
      rfl
    rw [step2, List.dropWhile_cons, if_neg (by simpa using hh)]
    have step3 : (h :: (t ++ ['户', '用'])).reverse
        = ('用' :: '户' :: (h :: t).reverse) := by
      simp
    rw [step3, ← hcr, List.reverse_reverse]
    rfl

theorem firstCategoryMemory_spec
    (findall : List Char → List Char → List (List (List Char)))
    (msg memType : List Char) :
    ∀ (ps : List (List Char)) (m : ExtractedMemory),
      firstCategoryMemory findall msg memType ps = some m →
      m.memType = memType
        ∧ ∃ x, m.content = "用户".toList ++ pyStripPunct x
            ∧ pyStripPunct x ≠ [] ∧ 2 < (pyStripPunct x).length := by
  intro ps
  induction ps with
  | nil => intro m h; cases h
  | cons p ps ih =>
    intro m h
    rw [firstCategoryMemory] at h
    cases hf : findall p msg with
    | nil =>
      rw [hf] at h
      exact ih m h
    | cons mt rest =>
      rw [hf] at h
      simp only at h
      by_cases hcond : pyStripPunct mt.flatten ≠ [] ∧ 2 < (pyStripPunct mt.flatten).length
      · rw [if_pos hcond] at h
        injection h with h1
        subst h1
        exact ⟨rfl, mt.flatten, rfl, hcond.1, hcond.2⟩
      · rw [if_neg hcond] at h
        exact ih m h

/-- **C10.** For every regex engine and every message, the fallback pattern
extractor returns at most two memories — at most one `preference` and at
most one `interest` (only the first passing pattern of each category
contributes) — and every returned memory has content beginning with `"用户"`
whose length after stripping enclosing punctuation exceeds 2. -/
theorem c10_fallback_extractor_shape
    (findall : List Char → List Char → List (List (List Char)))
    (msg : List Char) :
    (extract_memories_from_message findall msg).length ≤ 2
      ∧ (extract_memories_from_message findall msg).countP
          (fun m => m.memType == "preference".toList) ≤ 1
      ∧ (extract_memories_from_message findall msg).countP
          (fun m => m.memType == "interest".toList) ≤ 1
      ∧ ∀ m ∈ extract_memories_from_message findall msg,
          ("用户".toList).isPrefixOf m.content = true
            ∧ 2 < (pyStripPunct m.content).length := by
  have memberProp : ∀ (ty : List Char) (ps : List (List Char)) (m : ExtractedMemory),
      firstCategoryMemory findall msg ty ps = some m →
      ("用户".toList).isPrefixOf m.content = true
        ∧ 2 < (pyStripPunct m.content).length := by
    intro ty ps m hm
    obtain ⟨-, x, hx, hne, hlen⟩ := firstCategoryMemory_spec findall msg ty ps m hm
    constructor
    · rw [hx]
      exact isPrefixOf_append_self _ _
    · rw [hx, pyStripPunct_marker x hne]
      simp only [List.length_append]
      have : (pyStripPunct x).length ≥ 1 :=
        List.length_pos.mpr hne
      simp only [String.toList] at *
      omega
  rw [extract_memories_from_message]
  cases hp : firstCategoryMemory findall msg "preference".toList PREFERENCE_PATTERNS with
  | none =>
    cases hi : firstCategoryMemory findall msg "interest".toList INTEREST_PATTERNS with
    | none => exact ⟨by simp, by simp, by simp, by intro m hm; cases hm⟩
    | some mi =>
      have hi' := firstCategoryMemory_spec findall msg _ _ _ hi
      refine ⟨by simp, ?_, ?_, ?_⟩
      · simp only [List.nil_append, List.countP_cons, List.countP_nil]
        split <;> omega
      · simp only [List.nil_append, List.countP_cons, List.countP_nil]
        split <;> omega
      · intro m hm
        rcases List.mem_singleton.mp (by simpa using hm) with rfl
        exact memberProp _ _ _ hi
  | some mp =>
    have hp' := firstCategoryMemory_spec findall msg _ _ _ hp
    cases hi : firstCategoryMemory findall msg "interest".toList INTEREST_PATTERNS with
    | none =>
      refine ⟨by simp, ?_, ?_, ?_⟩
      · simp only [List.append_nil, List.countP_cons, List.countP_nil]
        split <;> omega
      · simp only [List.append_nil, List.countP_cons, List.countP_nil]
        split <;> omega
      · intro m hm
        rcases List.mem_singleton.mp (by simpa using hm) with rfl
        exact memberProp _ _ _ hp
    | some mi =>
      have hi' := firstCategoryMemory_spec findall msg _ _ _ hi
      refine ⟨by simp, ?_, ?_, ?_⟩
      · simp only [List.cons_append, List.nil_append, List.countP_cons,
          List.countP_nil]
        simp only [hp'.1, hi'.1]
        decide
      · simp only [List.cons_append, List.nil_append, List.countP_cons,
          List.countP_nil]
        simp only [hp'.1, hi'.1]
        decide
      · intro m hm
        simp only [List.cons_append, List.nil_append, List.mem_cons] at hm
        rcases hm with rfl | hm2
        · exact memberProp _ _ _ hp
        · rcases hm2 with rfl | hm3
          · exact memberProp _ _ _ hi
          · cases hm3

/-! ### C1: chunk-split invariance of `ThoughtTagFilter`

For an input `<think>X</think>Y` (with `X`, `Y` free of `'<'`), every way
of splitting it into consecutive chunks fed to a fresh filter produces `Y`
as the concatenated output.  The proof runs a phase invariant over the
consumed prefix length `k`: reading the opening tag (carry is the partial
tag), inside the hidden span (carry is a short suffix of the consumed
stream containing any partial `</think>`), and after the closing tag
(carry empty, output streaming `Y`). -/

def thinkL : List Char := "think".toList

/-- `"<think>"`. -/
def oTk : List Char := openTok thinkL

/-- `"</think>"`. -/
def cTk : List Char := closeTok thinkL

/-- The C1 input `<think>X</think>Y`. -/
def inputC1 (X Y : List Char) : List Char := oTk ++ (X ++ cTk ++ Y)

/-- Expected concatenated output after consuming the first `k` characters. -/
def c1Out (X Y : List Char) (k : Nat) : List Char :=
  ((inputC1 X Y).take k).drop (15 + X.length)

theorem strFind_none_of_short {pat s : List Char} (h : s.length < pat.length) :
    strFind pat s = none := by
  rw [strFind_none_iff]
  intro i
  by_contra hpre
  rw [Bool.not_eq_false] at hpre
  have := length_le_of_isPrefixOf hpre
  rw [List.length_drop] at this
  omega

theorem lastN_drop {m n : Nat} (l : List Char) (h : m + n ≤ l.length) :
    lastN n (l.drop m) = lastN n l := by
  rw [lastN, lastN, List.drop_drop, List.length_drop]
  congr 1
  omega

theorem take_isPrefixOf (l : List Char) (k : Nat) :
    (l.take k).isPrefixOf l = true := by
  induction l generalizing k with
  | nil => cases k <;> simp [List.isPrefixOf]
  | cons a t ih =>
    cases k with
    | zero => simp [List.isPrefixOf]
    | succ m => simp [List.isPrefixOf, ih]

theorem updBest_keep_zero (b : Bool) (t : List Char)
    (f : Option Nat) (k : Bool) (u : List Char) :
    ThoughtTagFilter.updBest (some (0, b, t)) f k u = some (0, b, t) := by
  cases f with
  | none => rfl
  | some p => simp [ThoughtTagFilter.updBest]

theorem findBest_zero_think (w : List Char) :
    ThoughtTagFilter.findBest defaultTags (oTk ++ w) = some (0, true, thinkL) := by
  have h0 : strFind (openTok thinkL) (oTk ++ w) = some 0 :=
    strFind_of_isPrefixOf (isPrefixOf_append_self oTk w)
  rw [ThoughtTagFilter.findBest]
  show List.foldl _ none [thinkL, "analysis".toList] = _
  simp only [List.foldl_cons, List.foldl_nil]
  rw [show (ThoughtTagFilter.updBest none (strFind (openTok thinkL) (oTk ++ w))
      true thinkL) = some (0, true, thinkL) by rw [h0]; rfl]
  rw [updBest_keep_zero, updBest_keep_zero, updBest_keep_zero]

theorem findBest_eq_none_of {tags : List (List Char)} {s : List Char}
    (h : ∀ t ∈ tags, strFind (openTok t) s = none ∧ strFind (closeTok t) s = none) :
    ThoughtTagFilter.findBest tags s = none := by
  rw [ThoughtTagFilter.findBest]
  induction tags with
  | nil => rfl
  | cons t ts ih =>
    simp only [List.foldl_cons]
    rw [(h t (List.mem_cons_self _ _)).1, (h t (List.mem_cons_self _ _)).2]
    exact ih (fun u hu => h u (List.mem_cons_of_mem _ hu))

theorem openTok_head (t : List Char) : openTok t = '<' :: (t ++ ['>']) := rfl

theorem closeTok_head (t : List Char) : closeTok t = '<' :: ('/' :: (t ++ ['>'])) := rfl

theorem findBest_none_of_no_lt {tags : List (List Char)} {r : List Char}
    (h : '<' ∉ r) : ThoughtTagFilter.findBest tags r = none := by
  apply findBest_eq_none_of
  intro t _
  rw [openTok_head, closeTok_head]
  exact ⟨strFind_none_of_not_mem h, strFind_none_of_not_mem h⟩

/-- Not-in-tag scan of a `'<'`-free suffix: everything is emitted, nothing
carried. -/
theorem tagLoop_clean (s : List Char) (fuel : Nat) (r : List Char)
    (h : '<' ∉ r) (hfuel : r.length ≤ fuel) :
    ThoughtTagFilter.tagLoop defaultTags s fuel none r = (⟨none, []⟩, r) := by
  cases r with
  | nil => cases fuel <;> rfl
  | cons a r' =>
    cases fuel with
    | zero => simp at hfuel
    | succ m =>
      simp only [ThoughtTagFilter.tagLoop]
      rw [findBest_none_of_no_lt h]
      simp only [ThoughtTagFilter.splitPartialTag]
      rw [lastIndexOf_none_of_not_mem h]

theorem tagLoop_intag_nil (s : List Char) (fuel : Nat) :
    ThoughtTagFilter.tagLoop defaultTags s fuel (some thinkL) [] = (⟨some thinkL, []⟩, []) := by
  cases fuel <;> rfl

/-- In-tag scan when no `</think>` occurs in the remaining suffix: the
blind `s[-7:]` carry of the whole buffer is retained. -/
theorem tagLoop_intag_noclose (s : List Char) (fuel : Nat) (r : List Char)
    (hno : strFind cTk r = none) (hr : r ≠ []) (hfuel : 1 ≤ fuel) :
    ThoughtTagFilter.tagLoop defaultTags s fuel (some thinkL) r
      = (⟨some thinkL, if 7 ≤ s.length then lastN 7 s else s⟩, []) := by
  cases r with
  | nil => exact absurd rfl hr
  | cons a r' =>
    cases fuel with
    | zero => omega
    | succ m =>
      simp only [ThoughtTagFilter.tagLoop]
      rw [show closeTok thinkL = cTk from rfl, hno]
      have hkeep : cTk.length - 1 = 7 := by decide
      rw [hkeep]
      by_cases hs : 7 ≤ s.length
      · rw [if_pos ⟨by omega, hs⟩, if_pos hs]
      · rw [if_neg (by omega), if_neg hs]

/-- In-tag scan when the closing tag is present (first `'<'` starts it) and
the remainder is `'<'`-free: the close is consumed and the rest emitted. -/
theorem tagLoop_intag_close (s : List Char) (fuel : Nat) (u v : List Char)
    (hu : '<' ∉ u) (hv : '<' ∉ v) (hfuel : (u ++ cTk ++ v).length ≤ fuel) :
    ThoughtTagFilter.tagLoop defaultTags s fuel (some thinkL) (u ++ cTk ++ v)
      = (⟨none, []⟩, v) := by
  have hfind : strFind cTk (u ++ cTk ++ v) = some u.length := by
    rw [show cTk = '<' :: ('/' :: (thinkL ++ ['>'])) from rfl]
    exact strFind_first_at hu
  have hlen8 : cTk.length = 8 := by decide
  have hlens : (u ++ cTk ++ v).length = u.length + 8 + v.length := by
    simp only [List.length_append, hlen8]
  have hdrop : (u ++ cTk ++ v).drop (u.length + cTk.length) = v := by
    rw [List.append_assoc, List.drop_append_eq_append_drop,
      List.drop_eq_nil_of_le (by omega), List.nil_append,
      List.drop_append_eq_append_drop,
      List.drop_eq_nil_of_le (by rw [hlen8]; omega), List.nil_append]
    rw [show u.length + cTk.length - u.length - cTk.length = 0 by omega]
    exact List.drop_zero v
  obtain ⟨a, r', hr⟩ : ∃ a r', u ++ cTk ++ v = a :: r' := by
    cases hx : u ++ cTk ++ v with
    | nil =>
      exfalso
      rw [hx] at hlens
      simp only [List.length_nil] at hlens
      omega
    | cons a r' => exact ⟨a, r', rfl⟩
  cases fuel with
  | zero =>
    exfalso
    omega
  | succ m =>
    rw [hr]
    simp only [ThoughtTagFilter.tagLoop]
    rw [← hr, show closeTok thinkL = cTk from rfl, hfind]
    split
    · rename_i heq
      cases heq
    · rename_i j heq
      injection heq with hj
      subst hj
      rw [hdrop]
      exact tagLoop_clean s m v hv (by omega)

/-- Not-in-tag scan of a nonempty strict prefix of `"<think>"`: nothing is
emitted, the prefix becomes the carry. -/
theorem tagLoop_partial_open (s : List Char) (fuel : Nat) (k : Nat)
    (hk0 : 0 < k) (hk7 : k < 7) (hfuel : 1 ≤ fuel) :
    ThoughtTagFilter.tagLoop defaultTags s fuel none (oTk.take k)
      = (⟨none, oTk.take k⟩, []) := by
  have h7 : oTk.length = 7 := by decide
  have hlen : (oTk.take k).length = k := by
    rw [List.length_take]
    omega
  have hshort : ∀ t ∈ defaultTags,
      strFind (openTok t) (oTk.take k) = none
        ∧ strFind (closeTok t) (oTk.take k) = none := by
    intro t ht
    have hol : 7 ≤ (openTok t).length ∧ 7 ≤ (closeTok t).length := by
      rcases List.mem_cons.mp ht with rfl | ht2
      · constructor <;> decide
      · rcases List.mem_cons.mp ht2 with rfl | ht3
        · constructor <;> decide
        · cases ht3
    constructor
    · exact strFind_none_of_short (by omega)
    · exact strFind_none_of_short (by omega)
  have hsplit : ThoughtTagFilter.splitPartialTag defaultTags (oTk.take k)
      = ([], oTk.take k) := by
    have hoTk : oTk = '<' :: "think>".toList := by decide
    have htk : oTk.take k = '<' :: ("think>".toList.take (k - 1)) := by
      rw [hoTk]
      cases k with
      | zero => omega
      | succ n => rfl
    have hnm : '<' ∉ "think>".toList.take (k - 1) := by
      intro hm
      have h2 := List.take_subset _ _ hm
      revert h2
      decide
    have hli : lastIndexOf '<' (oTk.take k) = some 0 := by
      rw [htk, lastIndexOf, lastIndexOf_none_of_not_mem hnm]
      simp
    rw [ThoughtTagFilter.splitPartialTag.eq_def, hli]
    simp only [List.drop_zero, List.take_zero]
    rw [if_pos]
    apply List.any_eq_true.mpr
    refine ⟨thinkL, by decide, ?_⟩
    rw [Bool.or_eq_true]
    left
    exact take_isPrefixOf oTk k
  cases hr : oTk.take k with
  | nil =>
    exfalso
    rw [hr] at hlen
    simp at hlen
    omega
  | cons a r' =>
    cases fuel with
    | zero => omega
    | succ m =>
      rw [← hr]
      rw [hr]
      simp only [ThoughtTagFilter.tagLoop]
      rw [← hr, findBest_eq_none_of hshort, hsplit]

/-- Not-in-tag scan of a buffer starting with the full `"<think>"`: the tag
is consumed (emitting nothing) and scanning continues inside the tag. -/
theorem tagLoop_open_entry (s : List Char) (m : Nat) (w : List Char) :
    ThoughtTagFilter.tagLoop defaultTags s (m + 1) none (oTk ++ w)
      = ThoughtTagFilter.tagLoop defaultTags s m (some thinkL) w := by
  have hr : oTk ++ w = '<' :: ((thinkL ++ ['>']) ++ w) := rfl
  rw [hr]
  simp only [ThoughtTagFilter.tagLoop]
  rw [← hr, findBest_zero_think]
  split
  · rename_i heq
    cases heq
  · rename_i p isOpen t heq
    cases heq
    simp only [if_true]
    rw [show (0 : Nat) + (openTok thinkL).length = oTk.length from rfl,
      List.drop_left, List.take_zero, List.nil_append]

theorem oTk_length : oTk.length = 7 := by decide

theorem cTk_length : cTk.length = 8 := by decide

theorem inputC1_length (X Y : List Char) :
    (inputC1 X Y).length = 15 + X.length + Y.length := by
  simp only [inputC1, List.length_append, oTk_length, cTk_length]
  omega

theorem inputC1_take_le7 (X Y : List Char) {k : Nat} (hk : k ≤ 7) :
    (inputC1 X Y).take k = oTk.take k := by
  rw [inputC1, List.take_append_eq_append_take]
  rw [show k - oTk.length = 0 by rw [oTk_length]; omega]
  simp

theorem inputC1_take_ge7 (X Y : List Char) {k : Nat} (hk : 7 ≤ k) :
    (inputC1 X Y).take k = oTk ++ (X ++ cTk ++ Y).take (k - 7) := by
  rw [inputC1, List.take_append_eq_append_take]
  rw [List.take_of_length_le (by rw [oTk_length]; omega), oTk_length]

theorem mid_take_le (X Y : List Char) {m : Nat} (hm : m ≤ X.length) :
    (X ++ cTk ++ Y).take m = X.take m := by
  rw [List.append_assoc, List.take_append_eq_append_take]
  rw [show m - X.length = 0 by omega]
  simp

theorem mid_take_ge (X Y : List Char) {m : Nat} (hm : X.length ≤ m) :
    (X ++ cTk ++ Y).take m = X ++ (cTk ++ Y).take (m - X.length) := by
  rw [List.append_assoc, List.take_append_eq_append_take]
  rw [List.take_of_length_le hm]

theorem close_take_le (Y : List Char) {q : Nat} (hq : q ≤ 8) :
    (cTk ++ Y).take q = cTk.take q := by
  rw [List.take_append_eq_append_take]
  rw [show q - cTk.length = 0 by rw [cTk_length]; omega]
  simp

theorem close_take_ge (Y : List Char) {q : Nat} (hq : 8 ≤ q) :
    (cTk ++ Y).take q = cTk ++ Y.take (q - 8) := by
  rw [List.take_append_eq_append_take]
  rw [List.take_of_length_le (by rw [cTk_length]; omega), cTk_length]

theorem cTk_take_partial {q : Nat} (hq1 : 1 ≤ q) :
    cTk.take q = '<' :: "/think>".toList.take (q - 1) := by
  rw [show cTk = '<' :: "/think>".toList from by decide]
  cases q with
  | zero => omega
  | succ n => rfl

theorem not_lt_slash_think : '<' ∉ "/think>".toList := by decide

theorem not_lt_think_gt : '<' ∉ "think>".toList := by decide

theorem not_mem_take {c : Char} {l : List Char} (h : c ∉ l) (n : Nat) :
    c ∉ l.take n := fun hm => h (List.take_subset n l hm)

theorem not_mem_drop {c : Char} {l : List Char} (h : c ∉ l) (n : Nat) :
    c ∉ l.drop n := fun hm => h (List.drop_subset n l hm)

theorem not_mem_append {c : Char} {l₁ l₂ : List Char} (h1 : c ∉ l₁)
    (h2 : c ∉ l₂) : c ∉ l₁ ++ l₂ := by
  intro hm
  rcases List.mem_append.mp hm with h | h
  · exact h1 h
  · exact h2 h

/-- The phase invariant for the C1 proof: filter state after any chunking
of the first `k` characters of `<think>X</think>Y`. -/
def C1Inv (X Y : List Char) (k : Nat) (st : TagState) : Prop :=
  (k < 7 → st = ⟨none, (inputC1 X Y).take k⟩)
  ∧ (k = 7 → st = ⟨some thinkL, []⟩)
  ∧ (7 < k → k < 15 + X.length → st.inTag = some thinkL
      ∧ ∃ j, st.carry = lastN j ((inputC1 X Y).take k)
          ∧ j ≤ 7 ∧ j + 1 ≤ k ∧ k ≤ 7 + X.length + j)
  ∧ (15 + X.length ≤ k → st = ⟨none, []⟩)

theorem take_append_le {A B : List Char} {n : Nat} (h : n ≤ A.length) :
    (A ++ B).take n = A.take n := by
  rw [List.take_append_eq_append_take, show n - A.length = 0 by omega]
  simp

theorem take_append_ge {A B : List Char} {n : Nat} (h : A.length ≤ n) :
    (A ++ B).take n = A ++ B.take (n - A.length) := by
  rw [List.take_append_eq_append_take, List.take_of_length_le h]

theorem drop_append_le {A B : List Char} {n : Nat} (h : n ≤ A.length) :
    (A ++ B).drop n = A.drop n ++ B := by
  rw [List.drop_append_eq_append_drop, show n - A.length = 0 by omega, List.drop_zero]

theorem drop_append_ge {A B : List Char} {n : Nat} (h : A.length ≤ n) :
    (A ++ B).drop n = B.drop (n - A.length) := by
  rw [List.drop_append_eq_append_drop, List.drop_eq_nil_of_le h, List.nil_append]

theorem length_take_of_le {l : List Char} {k : Nat} (h : k ≤ l.length) :
    (l.take k).length = k := by
  rw [List.length_take]
  omega

theorem inputC1_assoc (X Y : List Char) :
    inputC1 X Y = (oTk ++ X) ++ (cTk ++ Y) := by
  simp [inputC1, List.append_assoc]

theorem c1Out_eq_nil (X Y : List Char) {k : Nat} (hk : k ≤ 15 + X.length) :
    c1Out X Y k = [] := by
  rw [c1Out]
  apply List.drop_eq_nil_of_le
  rw [List.length_take]
  have h1 := Nat.min_le_left k (inputC1 X Y).length
  omega

theorem c1Out_take (X Y : List Char) {k : Nat} (hk : 15 + X.length ≤ k)
    (hk2 : k ≤ (inputC1 X Y).length) :
    c1Out X Y k = Y.take (k - (15 + X.length)) := by
  have hlen := inputC1_length X Y
  rw [c1Out, inputC1_take_ge7 X Y (by omega), mid_take_ge X Y (by omega),
    close_take_ge Y (by omega)]
  rw [show (oTk ++ (X ++ (cTk ++ Y.take (k - 7 - X.length - 8))))
        = ((oTk ++ X) ++ cTk) ++ Y.take (k - 7 - X.length - 8) by
      simp [List.append_assoc]]
  rw [drop_append_ge (by simp [List.length_append, oTk_length, cTk_length]; omega)]
  rw [show 15 + X.length - ((oTk ++ X) ++ cTk).length = 0 by
      simp [List.length_append, oTk_length, cTk_length]; omega]
  rw [List.drop_zero]
  congr 1
  omega

theorem inputC1_drop7 (X Y : List Char) :
    (inputC1 X Y).drop 7 = X ++ cTk ++ Y := by
  rw [inputC1, show (7 : Nat) = oTk.length from oTk_length.symm, List.drop_left]

theorem inputC1_drop_ge (X Y : List Char) {k : Nat} (hk : 15 + X.length ≤ k) :
    (inputC1 X Y).drop k = Y.drop (k - (15 + X.length)) := by
  rw [show inputC1 X Y = ((oTk ++ X) ++ cTk) ++ Y by simp [inputC1, List.append_assoc]]
  rw [drop_append_ge (by simp [List.length_append, oTk_length, cTk_length]; omega)]
  congr 1
  simp [List.length_append, oTk_length, cTk_length]
  omega

/-- No complete `</think>` occurs in a slice of the input that starts after
position 0 and ends before the closing tag completes. -/
theorem noclose_in_suffix (X Y : List Char) (hX : '<' ∉ X) {d k' : Nat}
    (hd1 : 1 ≤ d) (hdc : d ≤ 7 + X.length) (hk' : k' < 15 + X.length) :
    strFind cTk (((inputC1 X Y).take k').drop d) = none := by
  have hoX : oTk ++ X = '<' :: ((thinkL ++ ['>']) ++ X) := rfl
  have hfree : '<' ∉ (thinkL ++ ['>']) ++ X := not_mem_append (by decide) hX
  have hcTk : cTk = '<' :: "/think>".toList := by decide
  have hoXlen : (oTk ++ X).length = 7 + X.length := by
    simp [List.length_append, oTk_length]
  by_cases hcs : k' ≤ 7 + X.length
  · have ht : (inputC1 X Y).take k' = (oTk ++ X).take k' := by
      rw [inputC1_assoc]
      exact take_append_le (by omega)
    rw [ht]
    rcases Nat.eq_zero_or_pos k' with hk0 | hk0
    · rw [hk0]
      simp only [List.take_zero, List.drop_nil]
      rw [hcTk]
      exact strFind_none_of_not_mem (by simp)
    · have h2 : (oTk ++ X).take k' = '<' :: (((thinkL ++ ['>']) ++ X).take (k' - 1)) := by
        rw [hoX]
        cases k' with
        | zero => omega
        | succ n => rfl
      rw [h2]
      cases d with
      | zero => omega
      | succ d' =>
        simp only [List.drop_succ_cons]
        rw [hcTk]
        exact strFind_none_of_not_mem (not_mem_drop (not_mem_take hfree _) _)
  · push_neg at hcs
    have ht : (inputC1 X Y).take k'
        = (oTk ++ X) ++ ('<' :: "/think>".toList.take (k' - (7 + X.length) - 1)) := by
      rw [inputC1_assoc, take_append_ge (by omega), close_take_le Y (by omega),
        cTk_take_partial (by omega), hoXlen]
    rw [ht, drop_append_le (by omega)]
    have hu : '<' ∉ (oTk ++ X).drop d := by
      rw [hoX]
      cases d with
      | zero => omega
      | succ d' =>
        simp only [List.drop_succ_cons]
        exact not_mem_drop hfree d'
    rw [hcTk]
    apply strFind_none_short hu (not_mem_take not_lt_slash_think _)
    have hlt := List.length_take_le (k' - (7 + X.length) - 1) "/think>".toList
    have h7 : "/think>".toList.length = 7 := by decide
    have htk : ("/think>".toList.take (k' - (7 + X.length) - 1)).length
        ≤ k' - (7 + X.length) - 1 := by
      rw [List.length_take]
      omega
    omega

/-- Phase A step: consuming a chunk while still inside the opening
`<think>` literal. -/
theorem c1_stepA (X Y : List Char) (hX : '<' ∉ X) (hY : '<' ∉ Y)
    {k : Nat} {c : List Char} (hk : k < 7) (hc : c ≠ [])
    (hck : c = ((inputC1 X Y).drop k).take c.length)
    (hkc : k + c.length ≤ (inputC1 X Y).length) :
    C1Inv X Y (k + c.length)
        (ThoughtTagFilter.feed defaultTags ⟨none, (inputC1 X Y).take k⟩ c).1
      ∧ c1Out X Y (k + c.length)
          = c1Out X Y k
            ++ (ThoughtTagFilter.feed defaultTags ⟨none, (inputC1 X Y).take k⟩ c).2 := by
  have hlenI := inputC1_length X Y
  have hcpos : 0 < c.length := List.length_pos.mpr hc
  set n := c.length with hn
  set k' := k + n with hk'
  have hs : (inputC1 X Y).take k ++ c = (inputC1 X Y).take k' := by
    rw [hck, hk', List.take_add]
  have hfeed : ThoughtTagFilter.feed defaultTags ⟨none, (inputC1 X Y).take k⟩ c
      = ThoughtTagFilter.tagLoop defaultTags ((inputC1 X Y).take k')
          ((inputC1 X Y).take k').length none ((inputC1 X Y).take k') := by
    rw [ThoughtTagFilter.feed, if_neg hc]
    simp only [hs]
  have hslen : ((inputC1 X Y).take k').length = k' := length_take_of_le (by omega)
  rw [hfeed]
  by_cases hk7 : k' < 7
  · have h1 : (inputC1 X Y).take k' = oTk.take k' := inputC1_take_le7 X Y (by omega)
    rw [h1, tagLoop_partial_open _ _ k' (by omega) hk7
      (by rw [h1] at hslen; omega)]
    refine ⟨⟨fun _ => by rw [h1], fun h => by omega, fun h _ => by omega,
      fun h => by omega⟩, ?_⟩
    rw [c1Out_eq_nil X Y (by omega), c1Out_eq_nil X Y (by omega)]
    rfl
  · push_neg at hk7
    have hw : (inputC1 X Y).take k' = oTk ++ (X ++ cTk ++ Y).take (k' - 7) :=
      inputC1_take_ge7 X Y hk7
    have hmidlen : (X ++ cTk ++ Y).length = X.length + 8 + Y.length := by
      simp [List.length_append, cTk_length]
      omega
    rw [show ((inputC1 X Y).take k').length = (k' - 1) + 1 by rw [hslen]; omega]
    rw [hw, tagLoop_open_entry, ← hw]
    by_cases hk7e : k' = 7
    · rw [show (X ++ cTk ++ Y).take (k' - 7) = [] by rw [hk7e]; simp,
        tagLoop_intag_nil]
      refine ⟨⟨fun h => by omega, fun _ => rfl, fun h _ => by omega,
        fun h => by omega⟩, ?_⟩
      rw [c1Out_eq_nil X Y (by omega), c1Out_eq_nil X Y (by omega)]
      rfl
    · have hk8 : 8 ≤ k' := by omega
      by_cases hkE : k' < 15 + X.length
      · have hwne : (X ++ cTk ++ Y).take (k' - 7) ≠ [] := by
          intro h0
          have h1 := congrArg List.length h0
          rw [List.length_take, List.length_nil] at h1
          have h2 := Nat.min_eq_zero_iff.mp h1
          omega
        have hw7 : (X ++ cTk ++ Y).take (k' - 7)
            = ((inputC1 X Y).take k').drop 7 := by
          rw [hw, drop_append_ge (by rw [oTk_length]), oTk_length]
          simp
        have hnoclose : strFind cTk ((X ++ cTk ++ Y).take (k' - 7)) = none := by
          rw [hw7]
          exact noclose_in_suffix X Y hX (by omega) (by omega) hkE
        rw [tagLoop_intag_noclose _ _ _ hnoclose hwne (by omega)]
        rw [if_pos (by rw [hslen]; omega)]
        refine ⟨⟨fun h => by omega, fun h => by omega,
          fun _ _ => ⟨rfl, 7, ?_, le_refl 7, by omega, by omega⟩,
          fun h => by omega⟩, ?_⟩
        · rfl
        · rw [c1Out_eq_nil X Y (by omega), c1Out_eq_nil X Y (by omega)]
          rfl
      · push_neg at hkE
        have hv : (X ++ cTk ++ Y).take (k' - 7)
            = X ++ (cTk ++ Y.take (k' - (15 + X.length))) := by
          rw [mid_take_ge X Y (by omega), close_take_ge Y (by omega),
            show k' - 7 - X.length - 8 = k' - (15 + X.length) by omega]
        have hmid_ge : k' - 7 ≤ (X ++ cTk ++ Y).length := by
          rw [hmidlen]
          omega
        have hwlen : ((X ++ cTk ++ Y).take (k' - 7)).length = k' - 7 := by
          rw [List.length_take, Nat.min_eq_left hmid_ge]
        have hvlen : (X ++ cTk ++ Y.take (k' - (15 + X.length))).length = k' - 7 := by
          rw [List.append_assoc, ← hv, hwlen]
        rw [hv, ← List.append_assoc]
        rw [tagLoop_intag_close _ _ X (Y.take (k' - (15 + X.length))) hX
          (not_mem_take hY _) (by rw [hvlen]; omega)]
        refine ⟨⟨fun h => by omega, fun h => by omega, fun _ h => by omega,
          fun _ => rfl⟩, ?_⟩
        rw [c1Out_take X Y hkE (by omega), c1Out_eq_nil X Y (by omega)]
        rfl

/-- Phase B step: consuming a chunk from the state reached exactly at the
end of the opening `<think>` (empty carry, inside the tag). -/
theorem c1_stepB (X Y : List Char) (hX : '<' ∉ X) (hY : '<' ∉ Y)
    {c : List Char} {n : Nat} (hc : c ≠ []) (hn : c.length = n)
    (hck : c = ((inputC1 X Y).drop 7).take n)
    (hkc : 7 + n ≤ (inputC1 X Y).length) :
    C1Inv X Y (7 + n)
        (ThoughtTagFilter.feed defaultTags ⟨some thinkL, []⟩ c).1
      ∧ c1Out X Y (7 + n)
          = c1Out X Y 7
            ++ (ThoughtTagFilter.feed defaultTags ⟨some thinkL, []⟩ c).2 := by
  have hlenI := inputC1_length X Y
  have hcpos : 0 < n := by
    have := List.length_pos.mpr hc
    omega
  have hcw : c = (X ++ cTk ++ Y).take n := by
    rw [hck, inputC1_drop7]
  have hfeed : ThoughtTagFilter.feed defaultTags ⟨some thinkL, []⟩ c
      = ThoughtTagFilter.tagLoop defaultTags c n (some thinkL) c := by
    rw [ThoughtTagFilter.feed, if_neg hc]
    simp only [List.nil_append, hn]
  rw [hfeed]
  have hmidlen : (X ++ cTk ++ Y).length = X.length + 8 + Y.length := by
    simp [List.length_append, cTk_length]
    omega
  have hw7 : c = ((inputC1 X Y).take (7 + n)).drop 7 := by
    rw [inputC1_take_ge7 X Y (by omega), drop_append_ge (by rw [oTk_length]),
      oTk_length]
    simp only [Nat.sub_self, List.drop_zero]
    rw [hcw]
    congr 1
    omega
  by_cases hkE : 7 + n < 15 + X.length
  · have hnoclose : strFind cTk c = none := by
      rw [hw7]
      exact noclose_in_suffix X Y hX (by omega) (by omega) hkE
    rw [tagLoop_intag_noclose _ _ _ hnoclose hc (by omega)]
    have houtnil : c1Out X Y (7 + n) = c1Out X Y 7 ++ [] := by
      rw [c1Out_eq_nil X Y (by omega), c1Out_eq_nil X Y (by omega)]
      rfl
    by_cases h7s : 7 ≤ c.length
    · rw [if_pos h7s]
      have hlast : lastN 7 c = lastN 7 ((inputC1 X Y).take (7 + n)) := by
        rw [hw7]
        exact lastN_drop _ (by rw [length_take_of_le (by omega)]; omega)
      exact ⟨⟨fun h => by omega, fun h => by omega,
        fun _ _ => ⟨rfl, 7, hlast, le_refl 7, by omega, by omega⟩,
        fun h => by omega⟩, houtnil⟩
    · rw [if_neg h7s]
      have hcl : c = lastN n ((inputC1 X Y).take (7 + n)) := by
        rw [lastN, length_take_of_le (by omega), hw7]
        congr 1
        omega
      exact ⟨⟨fun h => by omega, fun h => by omega,
        fun _ _ => ⟨rfl, n, hcl, by omega, by omega, by omega⟩,
        fun h => by omega⟩, houtnil⟩
  · push_neg at hkE
    have hv2 : c = X ++ cTk ++ Y.take (7 + n - (15 + X.length)) := by
      rw [hcw, mid_take_ge X Y (by omega), close_take_ge Y (by omega),
        show n - X.length - 8 = 7 + n - (15 + X.length) by omega,
        List.append_assoc]
    have hloop : ThoughtTagFilter.tagLoop defaultTags c n (some thinkL) c
        = (⟨none, []⟩, Y.take (7 + n - (15 + X.length))) := by
      conv_lhs => rw [hv2]
      apply tagLoop_intag_close _ _ _ _ hX (not_mem_take hY _)
      rw [← hv2, hn]
    rw [hloop]
    refine ⟨⟨fun h => by omega, fun h => by omega, fun _ h => by omega,
      fun _ => rfl⟩, ?_⟩
    rw [c1Out_take X Y hkE (by omega), c1Out_eq_nil X Y (by omega)]
    rfl

/-- Phase C step: consuming a chunk while inside the hidden span, with the
carry being a short suffix of the consumed stream. -/
theorem c1_stepC (X Y : List Char) (hX : '<' ∉ X) (hY : '<' ∉ Y)
    {k j n : Nat} {c : List Char} (hc : c ≠ []) (hn : c.length = n)
    (hk7 : 7 < k) (hkE : k < 15 + X.length)
    (hj7 : j ≤ 7) (hjk : j + 1 ≤ k) (hjq : k ≤ 7 + X.length + j)
    (hck : c = ((inputC1 X Y).drop k).take n)
    (hkc : k + n ≤ (inputC1 X Y).length) :
    C1Inv X Y (k + n)
        (ThoughtTagFilter.feed defaultTags
          ⟨some thinkL, lastN j ((inputC1 X Y).take k)⟩ c).1
      ∧ c1Out X Y (k + n)
          = c1Out X Y k
            ++ (ThoughtTagFilter.feed defaultTags
                ⟨some thinkL, lastN j ((inputC1 X Y).take k)⟩ c).2 := by
  have hlenI := inputC1_length X Y
  have hcpos : 0 < n := by
    have := List.length_pos.mpr hc
    omega
  have hktake : ((inputC1 X Y).take k).length = k := length_take_of_le (by omega)
  have hktake' : ((inputC1 X Y).take (k + n)).length = k + n :=
    length_take_of_le (by omega)
  have hs : lastN j ((inputC1 X Y).take k) ++ c
      = ((inputC1 X Y).take (k + n)).drop (k - j) := by
    rw [lastN, hktake, List.take_add, drop_append_le (by rw [hktake]; omega), hck]
  have hslen : (((inputC1 X Y).take (k + n)).drop (k - j)).length = j + n := by
    rw [List.length_drop, hktake']
    omega
  have hfeed : ThoughtTagFilter.feed defaultTags
        ⟨some thinkL, lastN j ((inputC1 X Y).take k)⟩ c
      = ThoughtTagFilter.tagLoop defaultTags
          (((inputC1 X Y).take (k + n)).drop (k - j))
          (((inputC1 X Y).take (k + n)).drop (k - j)).length (some thinkL)
          (((inputC1 X Y).take (k + n)).drop (k - j)) := by
    rw [ThoughtTagFilter.feed, if_neg hc]
    simp only [hs]
  rw [hfeed]
  have hSne : ((inputC1 X Y).take (k + n)).drop (k - j) ≠ [] :=
    List.length_pos.mp (by rw [hslen]; omega)
  by_cases hkE' : k + n < 15 + X.length
  · have hnoclose : strFind cTk (((inputC1 X Y).take (k + n)).drop (k - j))
        = none :=
      noclose_in_suffix X Y hX (by omega) (by omega) hkE'
    rw [tagLoop_intag_noclose _ _ _ hnoclose hSne (by rw [hslen]; omega)]
    have houtnil : c1Out X Y (k + n) = c1Out X Y k ++ [] := by
      rw [c1Out_eq_nil X Y (by omega), c1Out_eq_nil X Y (by omega)]
      rfl
    by_cases h7s : 7 ≤ (((inputC1 X Y).take (k + n)).drop (k - j)).length
    · rw [if_pos h7s]
      have hlast : lastN 7 (((inputC1 X Y).take (k + n)).drop (k - j))
          = lastN 7 ((inputC1 X Y).take (k + n)) :=
        lastN_drop _ (by rw [hktake']; omega)
      exact ⟨⟨fun h => by omega, fun h => by omega,
        fun _ _ => ⟨rfl, 7, hlast, le_refl 7, by omega, by omega⟩,
        fun h => by omega⟩, houtnil⟩
    · rw [if_neg h7s]
      have hcl : ((inputC1 X Y).take (k + n)).drop (k - j)
          = lastN (j + n) ((inputC1 X Y).take (k + n)) := by
        rw [lastN, hktake']
        congr 1
        omega
      exact ⟨⟨fun h => by omega, fun h => by omega,
        fun _ _ => ⟨rfl, j + n, hcl, by rw [hslen] at h7s; omega, by omega,
          by omega⟩,
        fun h => by omega⟩, houtnil⟩
  · push_neg at hkE'
    have hoXlen : (oTk ++ X).length = 7 + X.length := by
      simp [List.length_append, oTk_length]
    have htakekn : (inputC1 X Y).take (k + n)
        = (oTk ++ X) ++ (cTk ++ Y.take (k + n - (15 + X.length))) := by
      rw [inputC1_assoc, take_append_ge (by rw [hoXlen]; omega), hoXlen,
        close_take_ge Y (by omega),
        show k + n - (7 + X.length) - 8 = k + n - (15 + X.length) by omega]
    have hSdecomp : ((inputC1 X Y).take (k + n)).drop (k - j)
        = (oTk ++ X).drop (k - j) ++ cTk ++ Y.take (k + n - (15 + X.length)) := by
      rw [htakekn, drop_append_le (by rw [hoXlen]; omega), ← List.append_assoc]
    have hu : '<' ∉ (oTk ++ X).drop (k - j) := by
      rw [show oTk ++ X = '<' :: ((thinkL ++ ['>']) ++ X) from rfl]
      have hfree : '<' ∉ (thinkL ++ ['>']) ++ X := not_mem_append (by decide) hX
      rcases Nat.exists_eq_add_of_le (show 1 ≤ k - j by omega) with ⟨d', hd'⟩
      rw [hd', show 1 + d' = d' + 1 by omega, List.drop_succ_cons]
      exact not_mem_drop hfree d'
    have hloop : ThoughtTagFilter.tagLoop defaultTags
          (((inputC1 X Y).take (k + n)).drop (k - j))
          (((inputC1 X Y).take (k + n)).drop (k - j)).length (some thinkL)
          (((inputC1 X Y).take (k + n)).drop (k - j))
        = (⟨none, []⟩, Y.take (k + n - (15 + X.length))) := by
      conv_lhs => rw [hSdecomp]
      apply tagLoop_intag_close _ _ _ _ hu (not_mem_take hY _)
      rw [← hSdecomp]
    rw [hloop]
    refine ⟨⟨fun h => by omega, fun h => by omega, fun _ h => by omega,
      fun _ => rfl⟩, ?_⟩
    rw [c1Out_take X Y hkE' (by omega), c1Out_eq_nil X Y (by omega)]
    rfl

/-- Phase D step: consuming a chunk after the closing `</think>`: the chunk
is a slice of `Y` and is emitted verbatim. -/
theorem c1_stepD (X Y : List Char) (hY : '<' ∉ Y)
    {k n : Nat} {c : List Char} (hc : c ≠ []) (hn : c.length = n)
    (hkE : 15 + X.length ≤ k)
    (hck : c = ((inputC1 X Y).drop k).take n)
    (hkc : k + n ≤ (inputC1 X Y).length) :
    C1Inv X Y (k + n) (ThoughtTagFilter.feed defaultTags ⟨none, []⟩ c).1
      ∧ c1Out X Y (k + n)
          = c1Out X Y k ++ (ThoughtTagFilter.feed defaultTags ⟨none, []⟩ c).2 := by
  have hlenI := inputC1_length X Y
  have hcpos : 0 < n := by
    have := List.length_pos.mpr hc
    omega
  have hcy : c = (Y.drop (k - (15 + X.length))).take n := by
    rw [hck, inputC1_drop_ge X Y hkE]
  have hcfree : '<' ∉ c := by
    rw [hcy]
    exact not_mem_take (not_mem_drop hY _) _
  have hfeed : ThoughtTagFilter.feed defaultTags ⟨none, []⟩ c
      = ThoughtTagFilter.tagLoop defaultTags c n none c := by
    rw [ThoughtTagFilter.feed, if_neg hc]
    simp only [List.nil_append, hn]
  rw [hfeed, tagLoop_clean c n c hcfree (by omega)]
  refine ⟨⟨fun h => by omega, fun h => by omega, fun _ h => by omega,
    fun _ => rfl⟩, ?_⟩
  rw [c1Out_take X Y (show 15 + X.length ≤ k + n by omega)
      (show k + n ≤ (inputC1 X Y).length by omega),
    c1Out_take X Y hkE (show k ≤ (inputC1 X Y).length by omega), hcy,
    show k + n - (15 + X.length) = (k - (15 + X.length)) + n by omega,
    List.take_add]

/-- One feed call preserves the C1 invariant and extends the output by the
expected slice. -/
theorem c1_step (X Y : List Char) (hX : '<' ∉ X) (hY : '<' ∉ Y)
    {k n : Nat} {c : List Char} (hn : c.length = n)
    (hck : c = ((inputC1 X Y).drop k).take n)
    (hkc : k + n ≤ (inputC1 X Y).length)
    {st : TagState} (hInv : C1Inv X Y k st) :
    C1Inv X Y (k + n) (ThoughtTagFilter.feed defaultTags st c).1
      ∧ c1Out X Y (k + n)
          = c1Out X Y k ++ (ThoughtTagFilter.feed defaultTags st c).2 := by
  by_cases hc : c = []
  · subst hc
    simp only [List.length_nil] at hn
    subst hn
    rw [ThoughtTagFilter.feed]
    simp only [if_pos rfl, Nat.add_zero]
    exact ⟨hInv, by simp⟩
  · obtain ⟨h1, h2, h3, h4⟩ := hInv
    rcases Nat.lt_or_ge k 7 with hk | hk
    · rw [h1 hk]
      have h := c1_stepA X Y hX hY hk hc (by rw [hn]; exact hck)
        (by rw [hn]; exact hkc)
      rw [hn] at h
      exact h
    · rcases Nat.lt_or_ge k (15 + X.length) with hkE | hkE
      · rcases Nat.eq_or_lt_of_le hk with hk7 | hk7
        · subst hk7
          rw [h2 rfl]
          exact c1_stepB X Y hX hY hc hn hck hkc
        · obtain ⟨hin, j, hcarry, hj7, hjk, hjq⟩ := h3 hk7 hkE
          obtain ⟨i, ca⟩ := st
          simp only at hin hcarry
          subst hin
          subst hcarry
          exact c1_stepC X Y hX hY hc hn hk7 hkE hj7 hjk hjq hck hkc
      · rw [h4 hkE]
        exact c1_stepD X Y hY hc hn hkE hck hkc

/-- Chunk-list induction: feeding any chunking of the rest of the input
from an invariant-satisfying state produces exactly the remaining expected
output. -/
theorem c1_many (X Y : List Char) (hX : '<' ∉ X) (hY : '<' ∉ Y) :
    ∀ (cs : List (List Char)) (k : Nat) (st : TagState),
      C1Inv X Y k st → (inputC1 X Y).drop k = cs.flatten →
      c1Out X Y (inputC1 X Y).length
        = c1Out X Y k ++ (ThoughtTagFilter.feedMany defaultTags st cs).2 := by
  intro cs
  induction cs with
  | nil =>
    intro k st hInv hflat
    have hk : (inputC1 X Y).length ≤ k := by
      have h := congrArg List.length hflat
      rw [List.length_drop, List.flatten_nil, List.length_nil] at h
      omega
    rw [ThoughtTagFilter.feedMany]
    have : c1Out X Y k = c1Out X Y (inputC1 X Y).length := by
      rw [c1Out, c1Out, List.take_of_length_le hk, List.take_length]
    rw [← this]
    simp
  | cons c cs ih =>
    intro k st hInv hflat
    rw [List.flatten_cons] at hflat
    by_cases hc : c = []
    · subst hc
      rw [List.nil_append] at hflat
      rw [ThoughtTagFilter.feedMany]
      have hfeed : ThoughtTagFilter.feed defaultTags st [] = (st, []) := by
        rw [ThoughtTagFilter.feed]
        simp
      simp only [hfeed]
      simpa using ih k st hInv hflat
    · have hlenc : k + c.length ≤ (inputC1 X Y).length := by
        have h := congrArg List.length hflat
        rw [List.length_drop, List.length_append] at h
        have hcp := List.length_pos.mpr hc
        omega
      have hck : c = ((inputC1 X Y).drop k).take c.length := by
        rw [hflat, List.take_left]
      have hstep := c1_step X Y hX hY rfl hck hlenc
        ⟨(fun h => by exact (hInv.1 h)), hInv.2.1, hInv.2.2.1, hInv.2.2.2⟩
      have hdrop : (inputC1 X Y).drop (k + c.length) = cs.flatten := by
        have h2 : (inputC1 X Y).drop (k + c.length)
            = ((inputC1 X Y).drop k).drop c.length := by
          rw [List.drop_drop]
        rw [h2, hflat, List.drop_left]
      have hrec := ih (k + c.length) _ hstep.1 hdrop
      rw [ThoughtTagFilter.feedMany]
      simp only []
      rw [hrec, hstep.2, List.append_assoc]

/-- **C1 (counterexample).** The claim quantifies over all `X`, `Y`.  With
`X = ""` and `Y = "<think>"` the input `<think></think><think>` fed as a
single chunk (one admissible splitting) produces `""`, not `Y`: the filter
consumes the `<think>` occurring inside `Y`. -/
theorem c1_counterexample :
    "<think></think><think>".toList = inputC1 [] "<think>".toList
      ∧ (ThoughtTagFilter.feedMany defaultTags freshTag
          ["<think></think><think>".toList]).2 = []
      ∧ "<think>".toList ≠ ([] : List Char) := by
  refine ⟨by decide, by decide, by decide⟩

/-- **C1 (amended).** For every input of the form `<think>X</think>Y` in
which `X` and `Y` contain no `'<'` character (so `Y` holds no further tag
markers or partial tag prefixes and `X` does not close the span early), and
for every way of splitting it into consecutive chunks fed in order to a
fresh `ThoughtTagFilter`, the concatenation of the outputs of all feed
calls equals `Y` exactly. -/
theorem c1_amended_chunk_invariance (X Y : List Char) (hX : '<' ∉ X)
    (hY : '<' ∉ Y) (cs : List (List Char))
    (hcs : cs.flatten = inputC1 X Y) :
    (ThoughtTagFilter.feedMany defaultTags freshTag cs).2 = Y := by
  have h0 : C1Inv X Y 0 freshTag := by
    refine ⟨fun _ => ?_, fun h => by omega, fun h _ => by omega, fun h => by omega⟩
    rw [List.take_zero]
    rfl
  have hm := c1_many X Y hX hY cs 0 freshTag h0 (by rw [List.drop_zero, hcs])
  have hfin : c1Out X Y (inputC1 X Y).length = Y := by
    rw [c1Out_take X Y (by rw [inputC1_length]; omega) (le_refl _),
      inputC1_length,
      show 15 + X.length + Y.length - (15 + X.length) = Y.length by omega,
      List.take_length]
  rw [hfin, c1Out_eq_nil X Y (show (0 : Nat) ≤ 15 + X.length by omega)] at hm
  simpa using hm.symm

/-- Witness for the amended C1 at a concrete input and splitting: the input
`<think>ab</think>cd` split as `"<think>a" / "b</thi" / "nk>cd"` yields
`"cd"`. -/
theorem c1_amended_chunk_invariance_witness :
    ('<' ∉ "ab".toList) ∧ ('<' ∉ "cd".toList)
      ∧ (["<think>a".toList, "b</thi".toList, "nk>cd".toList]
            : List (List Char)).flatten
          = inputC1 "ab".toList "cd".toList
      ∧ (ThoughtTagFilter.feedMany defaultTags freshTag
          ["<think>a".toList, "b</thi".toList, "nk>cd".toList]).2
          = "cd".toList :=
  ⟨by decide, by decide, by decide,
    c1_amended_chunk_invariance "ab".toList "cd".toList (by decide) (by decide)
      ["<think>a".toList, "b</thi".toList, "nk>cd".toList] (by decide)⟩

end DigitalEmployee
